import Mathlib

/-!
# ast_calculator: lexer, parser, printer and destructor of `src/ast.c`

A shallow embedding of `src/ast.c` / `src/ast.h`.

Conventions of the embedding.

* A C string is the list of its characters; the scan stops at the end of the
  list or at a NUL character, whichever comes first.
* A value of type `AST` is what an `AST *` denotes: the NULL pointer or a heap
  node with its tag and the union fields that tag uses.
* `int` arithmetic on token values wraps at 32 bits (`wrap32`).
* A function of the program returns a `Result`: the value it returns, a
  `Fault` (the two `exit(1)` paths, or a read the C language leaves
  undefined), or `timeout` when the iteration budget of the model is used up.
* `parse2` declares `AST *current;` without an initialiser inside the body of
  its loop and reads it in the iterations that do not assign it.  What such an
  iteration reads is indeterminate: it is `junk i`, where `i` is the loop index
  and `junk` an explicit parameter, and the theorems hold for every `junk`.
  The root a nested call of `parse0` returns is dropped by its caller, so the
  one `junk` serves every call of `parse2` in a run.
* `tokenize_expr` declares `Token *token_buffer;` without an initialiser,
  pushes onto it and returns it.  What the pointer holds on entry is an
  explicit parameter: `some buf` when it addresses a buffer that holds `buf`
  (`some []` for NULL), `none` when it addresses no buffer, in which case
  `sb_push` and `sb_len` on it are the fault `wild_pointer`.
* `ast_new` is taken to succeed: a node it builds is the value of its argument.
* `util.h` is not part of the sources; `sb_push` and `sb_len` are modelled as
  append and length of a list.
-/

namespace Ast

/-! ## Data model (`ast.h`) -/

/-- The enum `Token_Type`. -/
inductive Token_Type
  | number
  | lparen
  | rparen
  | plus
  | minus
  | asterisk
  | slash
  | ast
  deriving DecidableEq, Repr

/-- The enum `AST_Type` together with the struct `AST`, seen through a pointer:
`null` is the NULL pointer, every other constructor is a node carrying the
union members its tag uses (`body`; `left` and `right`; `val`). -/
inductive AST
  | null
  | main (body : AST)
  | negative (body : AST)
  | number (val : Int)
  | add (left right : AST)
  | subtract (left right : AST)
  | multiply (left right : AST)
  | divide (left right : AST)
  deriving DecidableEq, Repr

/-- The struct `Token`.  In C `node` and `val` share storage; the embedding
keeps both members, `parse2` reads `node` only when `type` is `ast` and `val`
only otherwise. -/
structure Token where
  type : Token_Type
  val : Int
  node : AST
  deriving DecidableEq, Repr

/-- The ways a run ends without returning a value. -/
inductive Fault
  /-- The exit after `printf("ERROR: character %c not supported")`. -/
  | unsupported_char (c : Char)
  /-- The exit after `printf("Unexpected token while parsing")`. -/
  | unexpected_token
  /-- A read of `token_buffer[i]` with `i` outside `[0, sb_len)`. -/
  | out_of_bounds
  /-- A read of `root->tag` with `root == NULL`. -/
  | null_deref
  /-- A use of `sb_push` or `sb_len` on a `token_buffer` that addresses no
  buffer. -/
  | wild_pointer
  deriving DecidableEq, Repr

/-- Outcome of running a function of the program. -/
inductive Result (α : Type)
  | ret (a : α)
  | fault (f : Fault)
  | timeout
  deriving DecidableEq, Repr

/-- Sequencing of two runs: a fault or a timeout of the first ends the run. -/
def Result.bind {α β : Type} (r : Result α) (k : α → Result β) : Result β :=
  match r with
  | .ret a => k a
  | .fault f => .fault f
  | .timeout => .timeout

/-- Modelled from the spec: the growable-array macro `sb_push` of `util.h`
(not under src/); the buffer is a length-tracked sequence and a push appends
at its end. -/
def sb_push (buf : List Token) (t : Token) : List Token := buf ++ [t]

/-- Modelled from the spec: the growable-array macro `sb_len` of `util.h`
(not under src/); the number of elements pushed so far, as an `int`. -/
def sb_len (buf : List Token) : Int := (buf.length : Int)

/-- The read `token_buffer[i]`; `none` when `i` is outside the buffer. -/
def tok_at (buf : List Token) (i : Int) : Option Token :=
  if 0 ≤ i then buf.get? i.toNat else none

/-- Two's-complement wrap of an `int` result to 32 bits. -/
def wrap32 (x : Int) : Int := (x + 2147483648) % 4294967296 - 2147483648

/-! ## Lexer -/

/-- Function `next_char`: the character after the current one (NUL at the end). -/
def next_char (s : List Char) : Char :=
  match s with
  | _ :: c :: _ => c
  | _ => Char.ofNat 0

/-- The inner loop `while (isdigit(*expr)) { val *= 10; val += *expr++ - '0'; }`:
returns the final `val` and the remaining text. -/
def scan_digits : Int → List Char → Int × List Char
  | val, [] => (val, [])
  | val, c :: rest =>
    if c.isDigit then
      scan_digits (wrap32 (wrap32 (val * 10) + ((c.toNat : Int) - 48))) rest
    else (val, c :: rest)

/-- The token `current_token = {0}` after an assignment to its `type`. -/
def mk_token (t : Token_Type) : Token := ⟨t, 0, AST.null⟩

/-- The token `current_token = {0}` after `type = TOKEN_TYPE_number` and an
assignment to its `val`. -/
def number_token (v : Int) : Token := ⟨Token_Type.number, v, AST.null⟩

/-- The `switch (*expr)` of `tokenize_expr`, run at a non-NUL character `c`
followed by `rest`: the value left in `current_token` together with the text
still to scan, or the exit of the default case.  The case for a space leaves
`current_token` as initialised by `{0}`, whose type is the first enumerator,
`TOKEN_TYPE_number`. -/
def scan_token (c : Char) (rest : List Char) : Result (Token × List Char) :=
  if c = ' ' then Result.ret (mk_token Token_Type.number, rest)
  else if c.isDigit then
    let r := scan_digits 0 (c :: rest)
    Result.ret (number_token r.1, r.2)
  else if c = '+' then Result.ret (mk_token Token_Type.plus, rest)
  else if c = '-' then
    if next_char (c :: rest) = ' ' then Result.ret (mk_token Token_Type.minus, rest)
    else
      let r := scan_digits 0 (c :: rest)
      Result.ret (number_token (wrap32 (-r.1)), r.2)
  else if c = '*' then Result.ret (mk_token Token_Type.asterisk, rest)
  else if c = '/' then Result.ret (mk_token Token_Type.slash, rest)
  else if c = '(' then Result.ret (mk_token Token_Type.lparen, rest)
  else if c = ')' then Result.ret (mk_token Token_Type.rparen, rest)
  else Result.fault (Fault.unsupported_char c)

/-- The loop `while (*expr)` of `tokenize_expr`.  `fuel` bounds the number of
executions of the loop body; an execution that does not exit ends with
`sb_push(token_buffer, current_token)`. -/
def tokenize_loop : Nat → List Char → List Token → Result (List Token)
  | _, [], buf => Result.ret buf
  | fuel, c :: rest, buf =>
    if c = Char.ofNat 0 then Result.ret buf
    else
      match fuel with
      | 0 => Result.timeout
      | fuel + 1 =>
        match scan_token c rest with
        | Result.ret (current_token, expr) => tokenize_loop fuel expr (sb_push buf current_token)
        | Result.fault f => Result.fault f
        | Result.timeout => Result.timeout

/-- Function `tokenize_expr`.  `token_buffer` is what the uninitialised
pointer holds on entry.  When it addresses a buffer the loop pushes onto that
buffer.  When it addresses no buffer, the function returns it as it is for a
text without characters, and otherwise the first execution of the loop body
runs the switch and then `sb_push` on it. -/
def tokenize_expr (token_buffer : Option (List Token)) (fuel : Nat) (expr : List Char) :
    Result (Option (List Token)) :=
  match token_buffer with
  | some buf => (tokenize_loop fuel expr buf).bind fun toks => Result.ret (some toks)
  | none =>
    match expr with
    | [] => Result.ret none
    | c :: rest =>
      if c = Char.ofNat 0 then Result.ret none
      else
        match fuel with
        | 0 => Result.timeout
        | _ + 1 => (scan_token c rest).bind fun _ => Result.fault Fault.wild_pointer

/-! ## Parser -/

/-- Function `find_closing_paren`, its loop: `n` is the number of iterations
left before `i` reaches `sb_len(token_buffer)`. -/
def find_closing_paren_loop (token_buffer : List Token) : Nat → Int → Int → Result Int
  | 0, _, _ => Result.ret (-1)
  | n + 1, i, open_paren_count =>
    match tok_at token_buffer i with
    | none => Result.fault Fault.out_of_bounds
    | some current_token =>
      let count :=
        match current_token.type with
        | Token_Type.lparen => open_paren_count + 1
        | Token_Type.rparen => open_paren_count - 1
        | _ => open_paren_count
      if count = 0 then Result.ret i
      else find_closing_paren_loop token_buffer n (i + 1) count

/-- Function `find_closing_paren`: the index of the closing paren, or `-1`. -/
def find_closing_paren (token_buffer : List Token) (open_paren_index : Int) : Result Int :=
  find_closing_paren_loop token_buffer
    (sb_len token_buffer - (open_paren_index + 1)).toNat (open_paren_index + 1) 1

/-- The operand conversion of `parse2`: an `ast` token gives its node, any
other token a fresh number node holding the token's `val`. -/
def operand (t : Token) : AST :=
  if t.type = Token_Type.ast then t.node else AST.number t.val

/-- Function `parse2`, its loop: `n` is the number of iterations left before
`i` reaches `sb_len(token_buffer) - 1`, `root` the local pointer of that name.
The local `current` is declared in the body of the loop: an iteration of the
`plus` or `minus` case assigns it before `root = current`, any other
iteration reads it unassigned, which gives `junk i`. -/
def parse2_loop (junk : Int → AST) (token_buffer : List Token) : Nat → Int → AST → Result AST
  | 0, _, root => Result.ret root
  | n + 1, i, root =>
    match tok_at token_buffer i with
    | none => Result.fault Fault.out_of_bounds
    | some current_token =>
      if current_token.type = Token_Type.minus ∨ current_token.type = Token_Type.plus then
        let left_read : Option Token :=
          match root with
          | AST.null => tok_at token_buffer (i - 1)
          | _ => some ⟨Token_Type.ast, 0, root⟩
        match left_read, tok_at token_buffer (i + 1) with
        | some left_token, some right_token =>
          let current :=
            if current_token.type = Token_Type.plus then
              AST.add (operand left_token) (operand right_token)
            else AST.subtract (operand left_token) (operand right_token)
          parse2_loop junk token_buffer n (i + 1) current
        | _, _ => Result.fault Fault.out_of_bounds
      else parse2_loop junk token_buffer n (i + 1) (junk i)

/-- Function `parse2`: `root` starts as NULL. -/
def parse2 (junk : Int → AST) (token_buffer : List Token) : Result AST :=
  parse2_loop junk token_buffer (sb_len token_buffer - 1 - 1).toNat 1 AST.null

/-- Function `parse1`. -/
def parse1 (junk : Int → AST) (token_buffer : List Token) : Result AST :=
  parse2 junk token_buffer

/-- Function `parse0`, written as its loop from index `i`: the C call
`parse0(token_buffer, offset, buffer_len)` is `parse0 junk token_buffer fuel
offset buffer_len`.  `fuel` bounds the depth of loop iterations and nested
calls.  The `negative` nodes the C code builds are bound to a local that is
never read. -/
def parse0 (junk : Int → AST) (token_buffer : List Token) : Nat → Int → Int → Result AST
  | fuel, i, buffer_len =>
    if i < buffer_len then
      match fuel with
      | 0 => Result.timeout
      | fuel + 1 =>
        match tok_at token_buffer i with
        | none => Result.fault Fault.out_of_bounds
        | some current_token =>
          match current_token.type with
          | Token_Type.minus =>
            match tok_at token_buffer (i + 1) with
            | none => Result.fault Fault.out_of_bounds
            | some next_token =>
              if next_token.type = Token_Type.number then
                let _node := AST.negative (AST.number next_token.val)
                parse0 junk token_buffer fuel (i + 1 + 1) buffer_len
              else if next_token.type = Token_Type.lparen then
                (find_closing_paren token_buffer (i + 1)).bind fun closing_paren_index =>
                  (parse0 junk token_buffer fuel (i + 1) closing_paren_index).bind
                    fun body_node =>
                      let _node := AST.negative body_node
                      parse0 junk token_buffer fuel (i + 1 + 1) buffer_len
              else parse0 junk token_buffer fuel (i + 1 + 1) buffer_len
          | Token_Type.number => parse0 junk token_buffer fuel (i + 1) buffer_len
          | Token_Type.lparen => parse0 junk token_buffer fuel (i + 1) buffer_len
          | _ => Result.fault Fault.unexpected_token
    else parse1 junk token_buffer

/-- Function `ast_generate_from_expr`.  `token_buffer` is what the
uninitialised pointer of `tokenize_expr` holds on entry; `sb_len` on the
pointer `tokenize_expr` returns is a fault when it addresses no buffer. -/
def ast_generate_from_expr (token_buffer : Option (List Token)) (junk : Int → AST) (fuel : Nat)
    (expr : List Char) : Result AST :=
  (tokenize_expr token_buffer fuel expr).bind fun returned =>
    match returned with
    | some toks => parse0 junk toks fuel 0 (sb_len toks)
    | none => Result.fault Fault.wild_pointer

/-! ## Printer and destructor -/

/-- The text `printf("%d", v)` writes. -/
def fmt_d (v : Int) : List Char :=
  if v < 0 then '-' :: Nat.toDigits 10 v.natAbs else Nat.toDigits 10 v.toNat

/-- Function `ast_print`: `out` is what standard output holds before the call,
the result what it holds after.  The switch has no case for `negative`, so
such a node prints nothing. -/
def ast_print : AST → List Char → Result (List Char)
  | AST.null, _ => Result.fault Fault.null_deref
  | AST.main body, out => ast_print body (out ++ "main() = ".toList)
  | AST.number val, out => Result.ret (out ++ fmt_d val)
  | AST.add left right, out =>
    (ast_print left (out ++ "(".toList)).bind fun o1 =>
      (ast_print right (o1 ++ " + ".toList)).bind fun o2 => Result.ret (o2 ++ ")".toList)
  | AST.subtract left right, out =>
    (ast_print left (out ++ "(".toList)).bind fun o1 =>
      (ast_print right (o1 ++ " - ".toList)).bind fun o2 => Result.ret (o2 ++ ")".toList)
  | AST.multiply left right, out =>
    (ast_print left (out ++ "(".toList)).bind fun o1 =>
      (ast_print right (o1 ++ " * ".toList)).bind fun o2 => Result.ret (o2 ++ ")".toList)
  | AST.divide left right, out =>
    (ast_print left (out ++ "(".toList)).bind fun o1 =>
      (ast_print right (o1 ++ " / ".toList)).bind fun o2 => Result.ret (o2 ++ ")".toList)
  | AST.negative _, out => Result.ret out

/-- The string-valued reading of `ast_print`: what it writes to an empty
output. -/
def render (root : AST) : Result (List Char) := ast_print root []

/-- Function `ast_free`: the nodes passed to `free`, in call order.  A node is
named by its path from the root (`0` for `body` or `left`, `1` for `right`);
`path` is the path of `root`.  The switch sends `negative` and `number` to
`default: break`. -/
def ast_free : AST → List Nat → Result (List (List Nat))
  | AST.null, _ => Result.fault Fault.null_deref
  | AST.main body, path =>
    (ast_free body (path ++ [0])).bind fun a => Result.ret (a ++ [path])
  | AST.add left right, path =>
    (ast_free left (path ++ [0])).bind fun a =>
      (ast_free right (path ++ [1])).bind fun b => Result.ret (a ++ b ++ [path])
  | AST.subtract left right, path =>
    (ast_free left (path ++ [0])).bind fun a =>
      (ast_free right (path ++ [1])).bind fun b => Result.ret (a ++ b ++ [path])
  | AST.multiply left right, path =>
    (ast_free left (path ++ [0])).bind fun a =>
      (ast_free right (path ++ [1])).bind fun b => Result.ret (a ++ b ++ [path])
  | AST.divide left right, path =>
    (ast_free left (path ++ [0])).bind fun a =>
      (ast_free right (path ++ [1])).bind fun b => Result.ret (a ++ b ++ [path])
  | AST.negative _, path => Result.ret [path]
  | AST.number _, path => Result.ret [path]

/-- All nodes reachable from `root`, children before their parent, named by
path as in `ast_free`. -/
def nodes : AST → List Nat → List (List Nat)
  | AST.null, _ => []
  | AST.main body, path => nodes body (path ++ [0]) ++ [path]
  | AST.negative body, path => nodes body (path ++ [0]) ++ [path]
  | AST.number _, path => [path]
  | AST.add left right, path => nodes left (path ++ [0]) ++ nodes right (path ++ [1]) ++ [path]
  | AST.subtract left right, path =>
    nodes left (path ++ [0]) ++ nodes right (path ++ [1]) ++ [path]
  | AST.multiply left right, path =>
    nodes left (path ++ [0]) ++ nodes right (path ++ [1]) ++ [path]
  | AST.divide left right, path =>
    nodes left (path ++ [0]) ++ nodes right (path ++ [1]) ++ [path]

/-- A well-formed tree: no NULL child anywhere. -/
def well_formed : AST → Bool
  | AST.null => false
  | AST.main body => well_formed body
  | AST.negative body => well_formed body
  | AST.number _ => true
  | AST.add left right => well_formed left && well_formed right
  | AST.subtract left right => well_formed left && well_formed right
  | AST.multiply left right => well_formed left && well_formed right
  | AST.divide left right => well_formed left && well_formed right

/-- The characters the lexer has a case for: space, decimal digit, and the
six operator and parenthesis characters. -/
def supported (c : Char) : Bool :=
  c = ' ' || c.isDigit || c = '+' || c = '-' || c = '*' || c = '/' || c = '(' || c = ')'

/-- A tree built from `add` and `subtract` nodes over non-negative number
leaves. -/
def additive : AST → Bool
  | AST.number val => decide (0 ≤ val)
  | AST.add left right => additive left && additive right
  | AST.subtract left right => additive left && additive right
  | _ => false

/-- An additive tree with at least one operator node. -/
def canonical : AST → Bool
  | AST.add left right => additive left && additive right
  | AST.subtract left right => additive left && additive right
  | _ => false

/-- The text `ast_print` writes for an additive tree. -/
def printed : AST → List Char
  | AST.number val => fmt_d val
  | AST.add left right => "(".toList ++ printed left ++ " + ".toList ++ printed right ++ ")".toList
  | AST.subtract left right =>
    "(".toList ++ printed left ++ " - ".toList ++ printed right ++ ")".toList
  | _ => []

/-- The tokens the lexer pushes while scanning `printed t`: one per
parenthesis, operator and digit run, and one zero token per space. -/
def printed_tokens : AST → List Token
  | AST.number val => [number_token (scan_digits 0 (fmt_d val)).1]
  | AST.add left right =>
    [mk_token Token_Type.lparen] ++ printed_tokens left ++
      [mk_token Token_Type.number, mk_token Token_Type.plus, mk_token Token_Type.number] ++
      printed_tokens right ++ [mk_token Token_Type.rparen]
  | AST.subtract left right =>
    [mk_token Token_Type.lparen] ++ printed_tokens left ++
      [mk_token Token_Type.number, mk_token Token_Type.minus, mk_token Token_Type.number] ++
      printed_tokens right ++ [mk_token Token_Type.rparen]
  | _ => []

/-- Token lists on which the scan of `parse0` reaches a token it has no case
for: it steps over `number` and `lparen` tokens one at a time and over a
`minus` together with a following `number`. -/
inductive Rejected : List Token → Prop
  | stop (t : Token) (post : List Token)
      (h : t.type ≠ Token_Type.minus ∧ t.type ≠ Token_Type.number ∧ t.type ≠ Token_Type.lparen) :
      Rejected (t :: post)
  | pass (t : Token) (rest : List Token)
      (h : t.type = Token_Type.number ∨ t.type = Token_Type.lparen) (hr : Rejected rest) :
      Rejected (t :: rest)
  | skip (m n : Token) (rest : List Token)
      (hm : m.type = Token_Type.minus) (hn : n.type = Token_Type.number) (hr : Rejected rest) :
      Rejected (m :: n :: rest)

/-- Token lists that hold a `number` token directly followed by a token
`parse0` has no case for.  The scan of `parse0` advances by two only from a
`minus` token, so no step of it jumps over such a pair. -/
def Blocked (toks : List Token) : Prop :=
  ∃ (pre : List Token) (a b : Token) (post : List Token), toks = pre ++ a :: b :: post ∧
    a.type = Token_Type.number ∧ b.type ≠ Token_Type.minus ∧ b.type ≠ Token_Type.number ∧
    b.type ≠ Token_Type.lparen

/-- A tree with a `negative` node somewhere. -/
def has_negative : AST → Bool
  | AST.null => false
  | AST.main body => has_negative body
  | AST.negative _ => true
  | AST.number _ => false
  | AST.add left right => has_negative left || has_negative right
  | AST.subtract left right => has_negative left || has_negative right
  | AST.multiply left right => has_negative left || has_negative right
  | AST.divide left right => has_negative left || has_negative right

/-- The operator character of a chain: `+` for `true`, `-` for `false`. -/
def op_char (plus : Bool) : Char := if plus then '+' else '-'

/-- The text ` op1 n1 ... opk nk` that follows the first operand of a chain,
one space on each side of every operator; `ops` lists the pairs `(opi, ni)`. -/
def chain_tail : List (Bool × Nat) → List Char
  | [] => []
  | (plus, n) :: rest => ' ' :: op_char plus :: ' ' :: (Nat.toDigits 10 n ++ chain_tail rest)

/-- The text `n0 op1 n1 ... opk nk`. -/
def chain_text (n0 : Nat) (ops : List (Bool × Nat)) : List Char :=
  Nat.toDigits 10 n0 ++ chain_tail ops

/-- The tokens the lexer pushes while scanning `chain_tail ops`: for every
operator a zero token for the space before it, the operator token, a zero
token for the space after it, and the number token of the operand. -/
def chain_tail_tokens : List (Bool × Nat) → List Token
  | [] => []
  | (plus, n) :: rest =>
    mk_token Token_Type.number ::
      mk_token (if plus then Token_Type.plus else Token_Type.minus) ::
      mk_token Token_Type.number ::
      number_token (scan_digits 0 (Nat.toDigits 10 n)).1 :: chain_tail_tokens rest

/-! ## Vocabulary of the parser claims -/

/-- The change of the parenthesis depth at index `i`: `+1` on an `lparen`
token, `-1` on an `rparen` token, `0` on any other token and outside the
buffer. -/
def paren_delta (buf : List Token) (i : Int) : Int :=
  match tok_at buf i with
  | some t =>
    match t.type with
    | Token_Type.lparen => 1
    | Token_Type.rparen => -1
    | _ => 0
  | none => 0

/-- The running depth that starts at `count` and takes in the `k` tokens at
the indices `i`, `i + 1`, ..., `i + k - 1`. -/
def run_depth (buf : List Token) : Int → Int → Nat → Int
  | _, count, 0 => count
  | i, count, k + 1 => run_depth buf (i + 1) (count + paren_delta buf i) k

/-- The running depth at index `j`: it starts at 1 for the parenthesis at
`open_index` and takes in the tokens `open_index + 1`, ..., `j`. -/
def depth_at (buf : List Token) (open_index j : Int) : Int :=
  run_depth buf (open_index + 1) 1 (j - open_index).toNat

/-- The node a `plus` (for `true`) or `minus` (for `false`) operator builds. -/
def op_node (plus : Bool) (left right : AST) : AST :=
  if plus then AST.add left right else AST.subtract left right

/-- The tokens `op1 t1 ... opk tk` that follow the first operand of a chain of
number tokens; `ops` lists the pairs `(opi, ti)`, `true` standing for `plus`. -/
def chain_ops : List (Bool × Int) → List Token
  | [] => []
  | (plus, v) :: rest =>
    mk_token (if plus then Token_Type.plus else Token_Type.minus) ::
      number_token v :: chain_ops rest

/-- The tokens `t0 op1 t1 ... opk tk`. -/
def chain_tokens (t0 : Int) (ops : List (Bool × Int)) : List Token :=
  number_token t0 :: chain_ops ops

/-- The left-nested tree over `first`: every pair `(opi, ti)` in turn puts
the tree so far to the left of `Number(ti)` under the node of `opi`. -/
def left_nested (first : AST) (ops : List (Bool × Int)) : AST :=
  ops.foldl (fun acc p => op_node p.1 acc (AST.number p.2)) first

/-- The base-10 value of a run of digits, by `value = value * 10 + digit`. -/
def decimal_value (s : List Char) : Int :=
  s.foldl (fun v c => v * 10 + ((c.toNat : Int) - 48)) 0

/-- A tree with only `add` and `subtract` as inner nodes and only `number`
nodes as leaves. -/
def add_subtract_number : AST → Bool
  | AST.number _ => true
  | AST.add left right => add_subtract_number left && add_subtract_number right
  | AST.subtract left right => add_subtract_number left && add_subtract_number right
  | _ => false

/-- A pointer that is NULL or the root of an `add_subtract_number` tree. -/
def null_or_add_subtract_number (root : AST) : Bool :=
  decide (root = AST.null) || add_subtract_number root

/-- Every `minus` token of the list is directly followed by a `number` token. -/
def minus_followed : List Token → Bool
  | [] => true
  | t :: rest =>
    (decide (t.type ≠ Token_Type.minus) ||
      (match rest with
        | [] => false
        | u :: _ => decide (u.type = Token_Type.number))) && minus_followed rest

/-! ## Sequencing, fuel and the lexer on digit runs -/

theorem scan_digits_minus (v : Int) (rest : List Char) :
    scan_digits v ('-' :: rest) = (v, '-' :: rest) := by
  simp [scan_digits, Char.isDigit]

/-- On a `-` that is not followed by a space the lexer loop uses up any budget. -/
theorem tokenize_loop_stuck (rest : List Char) (h : next_char ('-' :: rest) ≠ ' ') :
    ∀ (fuel : Nat) (buf : List Token), tokenize_loop fuel ('-' :: rest) buf = Result.timeout := by
  intro fuel
  induction fuel with
  | zero => intro buf; simp [tokenize_loop]
  | succ n ih =>
    intro buf
    rw [tokenize_loop]
    simp [scan_token, h, scan_digits_minus, Char.isDigit, ih]

/-- On a `-` that is not followed by a space one execution of the loop body
pushes `Number(0)` and leaves the text unchanged. -/
theorem tokenize_loop_stuck_step (rest : List Char) (h : next_char ('-' :: rest) ≠ ' ')
    (fuel : Nat) (buf : List Token) :
    tokenize_loop (fuel + 1) ('-' :: rest) buf =
      tokenize_loop fuel ('-' :: rest) (sb_push buf (number_token 0)) := by
  rw [tokenize_loop]
  simp [scan_token, h, scan_digits_minus, Char.isDigit, wrap32]

@[simp]
theorem Result.bind_ret {α β : Type} (a : α) (k : α → Result β) :
    (Result.ret a).bind k = k a := rfl

@[simp]
theorem Result.bind_fault {α β : Type} (f : Fault) (k : α → Result β) :
    (Result.fault f : Result α).bind k = Result.fault f := rfl

@[simp]
theorem Result.bind_timeout {α β : Type} (k : α → Result β) :
    (Result.timeout : Result α).bind k = Result.timeout := rfl

/-- On a buffer the pointer addresses, `tokenize_expr` is the lexer loop. -/
theorem tokenize_expr_some (buf : List Token) (fuel : Nat) (s : List Char) :
    tokenize_expr (some buf) fuel s =
      (tokenize_loop fuel s buf).bind fun toks => Result.ret (some toks) := rfl

/-- C3 (code defect shown at the text `-5`): an execution of the loop body of
`tokenize_expr` on `-5` pushes a zero number token and leaves the text where it
was, so no character is consumed, and `tokenize_expr` does not return within
any number of iterations, whatever buffer `token_buffer` addresses on entry;
when it addresses no buffer the first push is a fault, so no token sequence is
returned either. -/
theorem tokenize_expr_minus_digit_never_returns :
    (∀ (fuel : Nat) (buf : List Token),
      tokenize_loop (fuel + 1) "-5".toList buf =
        tokenize_loop fuel "-5".toList (sb_push buf (number_token 0))) ∧
    (∀ (fuel : Nat) (buf : List Token),
      tokenize_expr (some buf) fuel "-5".toList = Result.timeout) ∧
    ∀ fuel : Nat, tokenize_expr none (fuel + 1) "-5".toList =
      Result.fault Fault.wild_pointer := by
  refine ⟨fun fuel buf => tokenize_loop_stuck_step _ (by decide) fuel buf, fun fuel buf => ?_,
    fun fuel => rfl⟩
  have e : tokenize_loop fuel "-5".toList buf = Result.timeout :=
    tokenize_loop_stuck _ (by decide) fuel buf
  rw [tokenize_expr_some, e]
  rfl

theorem digitChar_isDigit (d : Nat) (h : d < 10) : (Nat.digitChar d).isDigit = true := by
  interval_cases d <;> decide

theorem toDigitsCore_isDigit : ∀ (fuel n : Nat) (ds : List Char),
    (∀ c ∈ ds, c.isDigit = true) → ∀ c ∈ Nat.toDigitsCore 10 fuel n ds, c.isDigit = true := by
  intro fuel
  induction fuel with
  | zero => intro n ds h; simpa [Nat.toDigitsCore] using h
  | succ k ih =>
    intro n ds h
    have hd : (Nat.digitChar (n % 10)).isDigit = true :=
      digitChar_isDigit _ (Nat.mod_lt _ (by decide))
    have h2 : ∀ c ∈ Nat.digitChar (n % 10) :: ds, c.isDigit = true := by
      intro c hc
      rcases List.mem_cons.1 hc with rfl | hc
      · exact hd
      · exact h c hc
    simp only [Nat.toDigitsCore]
    split
    · exact h2
    · exact ih _ _ h2

theorem toDigitsCore_ne_nil : ∀ (fuel n : Nat) (ds : List Char),
    ds ≠ [] → Nat.toDigitsCore 10 fuel n ds ≠ [] := by
  intro fuel
  induction fuel with
  | zero => intro n ds h; simpa [Nat.toDigitsCore] using h
  | succ k ih =>
    intro n ds _
    simp only [Nat.toDigitsCore]
    split
    · simp
    · exact ih _ _ (by simp)

theorem toDigits_isDigit (n : Nat) : ∀ c ∈ Nat.toDigits 10 n, c.isDigit = true :=
  toDigitsCore_isDigit _ _ _ (by simp)

theorem toDigits_ne_nil (n : Nat) : Nat.toDigits 10 n ≠ [] := by
  unfold Nat.toDigits
  simp only [Nat.toDigitsCore]
  split
  · simp
  · exact toDigitsCore_ne_nil _ _ _ (by simp)

theorem isDigit_ne_space {c : Char} (h : c.isDigit = true) : c ≠ ' ' := by
  rintro rfl; exact absurd h (by decide)

theorem isDigit_ne_nul {c : Char} (h : c.isDigit = true) : c ≠ Char.ofNat 0 := by
  rintro rfl; exact absurd h (by decide)

theorem scan_digits_append (rest : List Char)
    (hrest : ∀ c, rest.head? = some c → c.isDigit = false) :
    ∀ (s : List Char) (v : Int), (∀ c ∈ s, c.isDigit = true) →
      scan_digits v (s ++ rest) = ((scan_digits v s).1, rest) := by
  intro s
  induction s with
  | nil =>
    intro v _
    cases rest with
    | nil => simp [scan_digits]
    | cons c r =>
      have := hrest c rfl
      simp [scan_digits, this]
  | cons c s ih =>
    intro v h
    have hc : c.isDigit = true := h c (by simp)
    have hs : ∀ d ∈ s, d.isDigit = true := fun d hd => h d (by simp [hd])
    simp [scan_digits, hc, ih _ hs]

/-- One execution of the loop body turns a run of digits into one number token. -/
theorem tokenize_loop_digits (c : Char) (s rest : List Char)
    (h : ∀ d ∈ c :: s, d.isDigit = true)
    (hrest : ∀ d, rest.head? = some d → d.isDigit = false)
    (fuel : Nat) (buf : List Token) :
    tokenize_loop (fuel + 1) (c :: s ++ rest) buf =
      tokenize_loop fuel rest (sb_push buf (number_token (scan_digits 0 (c :: s)).1)) := by
  have hc : c.isDigit = true := h c (by simp)
  have e := scan_digits_append rest hrest (c :: s) 0 h
  simp only [List.cons_append] at e
  rw [List.cons_append, tokenize_loop]
  simp only [scan_token, isDigit_ne_nul hc, isDigit_ne_space hc, hc, if_false, if_true, e]

theorem tokenize_loop_nil (fuel : Nat) (buf : List Token) :
    tokenize_loop fuel [] buf = Result.ret buf := by
  cases fuel <;> rfl

theorem parse0_done (junk : Int → AST) (toks : List Token) (fuel : Nat) (i bl : Int) (h : ¬ i < bl) :
    parse0 junk toks fuel i bl = parse1 junk toks := by
  cases fuel <;> simp [parse0, h]

theorem tokenize_loop_nul (fuel : Nat) (c : Char) (rest : List Char) (buf : List Token)
    (h : c = Char.ofNat 0) : tokenize_loop fuel (c :: rest) buf = Result.ret buf := by
  cases fuel <;> simp [tokenize_loop, h]

/-- A result of the lexer loop other than `timeout` is kept under any larger
budget. -/
theorem tokenize_loop_mono (k : Nat) : ∀ (fuel : Nat) (s : List Char) (buf : List Token)
    (r : Result (List Token)), tokenize_loop fuel s buf = r → r ≠ Result.timeout →
    tokenize_loop (fuel + k) s buf = r := by
  intro fuel
  induction fuel with
  | zero =>
    intro s buf r h hr
    cases s with
    | nil => rw [tokenize_loop_nil] at h ⊢; exact h
    | cons c rest =>
      by_cases h0 : c = Char.ofNat 0
      · rw [tokenize_loop_nul _ _ _ _ h0] at h ⊢; exact h
      · simp [tokenize_loop, h0] at h
        exact absurd h.symm hr
  | succ n ih =>
    intro s buf r h hr
    cases s with
    | nil => rw [tokenize_loop_nil] at h ⊢; exact h
    | cons c rest =>
      by_cases h0 : c = Char.ofNat 0
      · rw [tokenize_loop_nul _ _ _ _ h0] at h ⊢; exact h
      · rw [show n + 1 + k = (n + k) + 1 by omega]
        rw [tokenize_loop] at h ⊢
        simp only [h0, if_false] at h ⊢
        cases hs : scan_token c rest with
        | ret p =>
          rw [hs] at h
          exact ih _ _ _ h hr
        | fault f => rw [hs] at h; exact h
        | timeout => rw [hs] at h; exact h

/-- A result of `parse0` other than `timeout` is kept under any larger budget. -/
theorem parse0_mono (junk : Int → AST) (toks : List Token) (k : Nat) : ∀ (fuel : Nat) (i bl : Int)
    (r : Result AST), parse0 junk toks fuel i bl = r → r ≠ Result.timeout →
    parse0 junk toks (fuel + k) i bl = r := by
  intro fuel
  induction fuel with
  | zero =>
    intro i bl r h hr
    by_cases hlt : i < bl
    · simp [parse0, hlt] at h
      exact absurd h.symm hr
    · rw [parse0_done _ _ _ _ _ hlt] at h ⊢; exact h
  | succ n ih =>
    intro i bl r h hr
    by_cases hlt : i < bl
    · rw [show n + 1 + k = (n + k) + 1 by omega]
      rw [parse0] at h ⊢
      simp only [hlt, if_true] at h ⊢
      cases h1 : tok_at toks i with
      | none => simpa [h1] using h
      | some t =>
        simp only [h1] at h ⊢
        cases ht : t.type <;> simp only [ht] at h ⊢ <;> try exact h
        · exact ih _ _ _ h hr
        · exact ih _ _ _ h hr
        · cases h2 : tok_at toks (i + 1) with
          | none => simpa [h2] using h
          | some nt =>
            simp only [h2] at h ⊢
            split_ifs at h ⊢ with hn hl
            · exact ih _ _ _ h hr
            · cases hf : find_closing_paren toks (i + 1) with
              | fault f => simpa [hf] using h
              | timeout => simpa [hf] using h
              | ret c =>
                simp only [hf, Result.bind_ret] at h ⊢
                cases hb : parse0 junk toks n (i + 1) c with
                | timeout => rw [hb] at h; exact absurd h.symm hr
                | fault f =>
                  rw [hb] at h
                  rw [ih _ _ _ hb (by simp)]
                  exact h
                | ret body =>
                  rw [hb] at h
                  rw [ih _ _ _ hb (by simp)]
                  simp only [Result.bind_ret] at h ⊢
                  exact ih _ _ _ h hr
            · exact ih _ _ _ h hr
    · rw [parse0_done _ _ _ _ _ hlt] at h ⊢; exact h

/-- A result of `tokenize_expr` other than `timeout` is kept under any larger
budget. -/
theorem tokenize_expr_mono (tb : Option (List Token)) (k fuel : Nat) (s : List Char)
    (r : Result (Option (List Token))) (h : tokenize_expr tb fuel s = r)
    (hr : r ≠ Result.timeout) : tokenize_expr tb (fuel + k) s = r := by
  cases tb with
  | some buf =>
    rw [tokenize_expr_some] at h ⊢
    cases ht : tokenize_loop fuel s buf with
    | timeout => rw [ht] at h; exact absurd h.symm hr
    | fault f => rw [tokenize_loop_mono k _ _ _ _ ht (by simp)]; rw [ht] at h; exact h
    | ret toks => rw [tokenize_loop_mono k _ _ _ _ ht (by simp)]; rw [ht] at h; exact h
  | none =>
    cases s with
    | nil => cases fuel <;> cases k <;> exact h
    | cons c rest =>
      by_cases h0 : c = Char.ofNat 0
      · simp only [tokenize_expr, h0, if_true] at h ⊢; exact h
      · cases fuel with
        | zero =>
          simp only [tokenize_expr, h0, if_false] at h
          exact absurd h.symm hr
        | succ n =>
          rw [show n + 1 + k = (n + k) + 1 by omega]
          simp only [tokenize_expr, h0, if_false] at h ⊢
          exact h

/-- A result of `ast_generate_from_expr` other than `timeout` is kept under any
larger budget. -/
theorem ast_generate_from_expr_mono (tb : Option (List Token)) (junk : Int → AST) (k fuel : Nat)
    (s : List Char) (r : Result AST)
    (h : ast_generate_from_expr tb junk fuel s = r) (hr : r ≠ Result.timeout) :
    ast_generate_from_expr tb junk (fuel + k) s = r := by
  unfold ast_generate_from_expr at h ⊢
  cases ht : tokenize_expr tb fuel s with
  | timeout => rw [ht] at h; exact absurd h.symm hr
  | fault f =>
    rw [ht] at h
    rw [tokenize_expr_mono _ k _ _ _ ht (by simp)]
    exact h
  | ret returned =>
    rw [ht] at h
    rw [tokenize_expr_mono _ k _ _ _ ht (by simp)]
    simp only [Result.bind_ret] at h ⊢
    cases returned with
    | none => exact h
    | some toks => exact parse0_mono _ _ k _ _ _ _ h hr

/-- When `token_buffer` addresses no buffer, `ast_generate_from_expr` returns no
tree: the first use of the pointer is a fault. -/
theorem ast_generate_from_expr_none (junk : Int → AST) (fuel : Nat) (s : List Char) (r : AST) :
    ast_generate_from_expr none junk fuel s ≠ Result.ret r := by
  unfold ast_generate_from_expr
  cases s with
  | nil => cases fuel <;> simp [tokenize_expr]
  | cons c rest =>
    by_cases h0 : c = Char.ofNat 0
    · simp [tokenize_expr, h0]
    · cases fuel with
      | zero => simp [tokenize_expr, h0]
      | succ n =>
        simp only [tokenize_expr, h0, if_false]
        cases scan_token c rest <;> simp

/-! ## A run of digits: one number token, and no tree -/

theorem isDigit_value {c : Char} (h : c.isDigit = true) :
    0 ≤ (c.toNat : Int) - 48 ∧ (c.toNat : Int) - 48 ≤ 9 := by
  simp only [Char.isDigit, Bool.and_eq_true, decide_eq_true_eq] at h
  obtain ⟨h1, h2⟩ := h
  have h1' : 48 ≤ c.val.toNat := h1
  have h2' : c.val.toNat ≤ 57 := h2
  have e : c.toNat = c.val.toNat := rfl
  omega

theorem wrap32_of_range (x : Int) (h1 : 0 ≤ x) (h2 : x ≤ 2147483647) : wrap32 x = x := by
  unfold wrap32
  rw [Int.emod_eq_of_lt (by omega) (by omega)]
  omega

theorem decimal_fold_le (s : List Char) : ∀ v : Int, 0 ≤ v → (∀ c ∈ s, c.isDigit = true) →
    v ≤ s.foldl (fun v c => v * 10 + ((c.toNat : Int) - 48)) v := by
  induction s with
  | nil => intro v _ _; simp
  | cons c s ih =>
    intro v hv hd
    have hc := isDigit_value (hd c (by simp))
    have := ih (v * 10 + ((c.toNat : Int) - 48)) (by omega) (fun d hd' => hd d (by simp [hd']))
    simp only [List.foldl_cons]
    omega

theorem scan_digits_value (s : List Char) : ∀ v : Int, 0 ≤ v → (∀ c ∈ s, c.isDigit = true) →
    s.foldl (fun v c => v * 10 + ((c.toNat : Int) - 48)) v ≤ 2147483647 →
    scan_digits v s = (s.foldl (fun v c => v * 10 + ((c.toNat : Int) - 48)) v, []) := by
  induction s with
  | nil => intro v _ _ _; simp [scan_digits]
  | cons c s ih =>
    intro v hv hd hfit
    have hcd : c.isDigit = true := hd c (by simp)
    have hc := isDigit_value hcd
    have hs : ∀ d ∈ s, d.isDigit = true := fun d hd' => hd d (by simp [hd'])
    simp only [List.foldl_cons] at hfit ⊢
    have hle := decimal_fold_le s (v * 10 + ((c.toNat : Int) - 48)) (by omega) hs
    have w1 : wrap32 (v * 10) = v * 10 := wrap32_of_range _ (by omega) (by omega)
    have w2 : wrap32 (v * 10 + ((c.toNat : Int) - 48)) = v * 10 + ((c.toNat : Int) - 48) :=
      wrap32_of_range _ (by omega) (by omega)
    rw [scan_digits]
    simp only [hcd, if_true, w1, w2]
    exact ih _ (by omega) hs hfit

/-- On a non-empty run of digits whose base-10 value fits a signed 32-bit `int`
and which is followed by no digit, one execution of the loop body pushes the
token of type `number` that holds that value and no node. -/
theorem tokenize_loop_digit_run (fuel : Nat) (s rest : List Char) (buf : List Token)
    (hne : s ≠ []) (hd : ∀ c ∈ s, c.isDigit = true) (hfit : decimal_value s ≤ 2147483647)
    (hrest : ∀ d, rest.head? = some d → d.isDigit = false) :
    tokenize_loop (fuel + 1) (s ++ rest) buf =
      tokenize_loop fuel rest (buf ++ [⟨Token_Type.number, decimal_value s, AST.null⟩]) := by
  have hv := scan_digits_value s 0 (le_refl 0) hd hfit
  cases s with
  | nil => exact absurd rfl hne
  | cons d s =>
    have hv1 : (scan_digits 0 (d :: s)).1 = decimal_value (d :: s) := by rw [hv]; rfl
    rw [tokenize_loop_digits d s rest hd hrest fuel buf, hv1]
    rfl

/-- C15 (code defect): `tokenize_expr` pushes onto the pointer `token_buffer`
it never initialised.  For every non-empty run of decimal digits whose base-10
value fits a signed 32-bit `int`: when the pointer addresses a buffer holding
`buf`, the buffer returned is `buf` followed by the one token of type `number`
whose value is the base-10 value of the run, so exactly that token only when
the pointer happened to be NULL; when the pointer addresses no buffer the push
is a fault; and inside a longer text one execution of the loop body consumes
the whole run and pushes that one token. -/
theorem tokenize_expr_digit_run_after_entry_content (fuel : Nat) (buf : List Token)
    (s : List Char) (hne : s ≠ []) (hd : s.all Char.isDigit = true)
    (hfit : decimal_value s ≤ 2147483647) :
    tokenize_expr (some buf) (fuel + 1) s =
      Result.ret (some (buf ++ [⟨Token_Type.number, decimal_value s, AST.null⟩])) ∧
    tokenize_expr none (fuel + 1) s = Result.fault Fault.wild_pointer ∧
    ∀ (c : Char) (rest : List Char) (buf0 : List Token), c.isDigit = false →
      tokenize_loop (fuel + 1) (s ++ c :: rest) buf0 =
        tokenize_loop fuel (c :: rest)
          (buf0 ++ [⟨Token_Type.number, decimal_value s, AST.null⟩]) := by
  have hd : ∀ c ∈ s, c.isDigit = true := by simpa using hd
  refine ⟨?_, ?_, ?_⟩
  · have e := tokenize_loop_digit_run fuel s [] buf hne hd hfit (by simp)
    simp only [List.append_nil] at e
    rw [tokenize_expr_some, e, tokenize_loop_nil]
    rfl
  · cases s with
    | nil => exact absurd rfl hne
    | cons d s =>
      have hc : d.isDigit = true := hd d (by simp)
      simp [tokenize_expr, isDigit_ne_nul hc, scan_token, isDigit_ne_space hc, hc]
  · intro c rest buf0 hc
    exact tokenize_loop_digit_run fuel s (c :: rest) buf0 hne hd hfit (by simpa using hc)

/-- Witness for `tokenize_expr_digit_run_after_entry_content` at the text `42`
and a buffer that holds a `plus` token on entry. -/
theorem tokenize_expr_digit_run_after_entry_content_witness :
    "42".toList ≠ [] ∧ "42".toList.all Char.isDigit = true ∧
    decimal_value "42".toList ≤ 2147483647 ∧
    tokenize_expr (some [⟨Token_Type.plus, 0, AST.null⟩]) (0 + 1) "42".toList =
      Result.ret (some [⟨Token_Type.plus, 0, AST.null⟩, ⟨Token_Type.number, 42, AST.null⟩]) ∧
    tokenize_expr (some []) (0 + 1) "42".toList =
      Result.ret (some [⟨Token_Type.number, 42, AST.null⟩]) ∧
    tokenize_expr none (0 + 1) "42".toList = Result.fault Fault.wild_pointer :=
  ⟨by decide, by decide, by decide,
    (tokenize_expr_digit_run_after_entry_content 0 [⟨Token_Type.plus, 0, AST.null⟩] "42".toList
      (by decide) (by decide) (by decide)).1,
    (tokenize_expr_digit_run_after_entry_content 0 [] "42".toList
      (by decide) (by decide) (by decide)).1,
    (tokenize_expr_digit_run_after_entry_content 0 [] "42".toList
      (by decide) (by decide) (by decide)).2.1⟩

/-- C1 (amended): for every non-empty run of decimal digits whose value `n`
fits a signed 32-bit `int`, `ast_generate_from_expr` returns what `parse0`
returns on the buffer `token_buffer` addressed on entry followed by the one
token `Number(n)`: no caller wraps the lone number token in a node.  On the
buffer that holds only `Number(n)`, the case of a NULL pointer on entry,
`parse0` returns the NULL root, since `parse2` builds a node only at an
operator token. -/
theorem ast_generate_from_expr_digit_run_no_number_node (junk : Int → AST) (fuel : Nat)
    (buf : List Token) (s : List Char) (hne : s ≠ []) (hd : s.all Char.isDigit = true)
    (hfit : decimal_value s ≤ 2147483647) :
    ast_generate_from_expr (some buf) junk (fuel + 1) s =
      parse0 junk (buf ++ [⟨Token_Type.number, decimal_value s, AST.null⟩]) (fuel + 1) 0
        (sb_len (buf ++ [⟨Token_Type.number, decimal_value s, AST.null⟩])) ∧
    parse0 junk [⟨Token_Type.number, decimal_value s, AST.null⟩] (fuel + 1) 0 1 =
      Result.ret AST.null ∧
    ast_generate_from_expr (some []) junk (fuel + 1) s = Result.ret AST.null := by
  have hd1 : ∀ c ∈ s, c.isDigit = true := by simpa using hd
  have e := tokenize_loop_digit_run fuel s [] buf hne hd1 hfit (by simp)
  simp only [List.append_nil] at e
  have e0 := tokenize_loop_digit_run fuel s [] [] hne hd1 hfit (by simp)
  simp only [List.append_nil, List.nil_append] at e0
  have hp : parse0 junk [⟨Token_Type.number, decimal_value s, AST.null⟩] (fuel + 1) 0 1 =
      Result.ret AST.null := by
    simp [parse0, parse0_done, tok_at, parse1, parse2, parse2_loop, sb_len]
  refine ⟨?_, hp, ?_⟩
  · simp only [ast_generate_from_expr, tokenize_expr_some, e, tokenize_loop_nil, Result.bind_ret]
  · simp only [ast_generate_from_expr, tokenize_expr_some, e0, tokenize_loop_nil, Result.bind_ret]
    exact hp

/-- Witness for `ast_generate_from_expr_digit_run_no_number_node` at the text
`5`. -/
theorem ast_generate_from_expr_digit_run_no_number_node_witness :
    "5".toList ≠ [] ∧ "5".toList.all Char.isDigit = true ∧
    decimal_value "5".toList ≤ 2147483647 ∧ decimal_value "5".toList = 5 ∧
    ast_generate_from_expr (some []) (fun _ => AST.null) (0 + 1) "5".toList =
      Result.ret AST.null :=
  ⟨by decide, by decide, by decide, by decide,
    (ast_generate_from_expr_digit_run_no_number_node (fun _ => AST.null) 0 [] "5".toList
      (by decide) (by decide) (by decide)).2.2⟩

/-- C1 (counterexample): on the text `5` the tree `Number(5)` is not returned:
with a NULL `token_buffer` on entry the NULL root is returned, and with a
`token_buffer` that addresses no buffer the first push is a fault. -/
theorem single_literal_not_number :
    ast_generate_from_expr (some []) (fun _ => AST.null) 1 "5".toList = Result.ret AST.null ∧
    ast_generate_from_expr none (fun _ => AST.null) 1 "5".toList
      = Result.fault Fault.wild_pointer ∧
    ast_generate_from_expr (some []) (fun _ => AST.null) 1 "5".toList
      ≠ Result.ret (AST.number 5) := by
  decide

/-! ## The printer and the destructor -/

/-- What `ast_print` leaves on the output is the output so far followed by what it
writes on an empty output. -/
theorem ast_print_acc (t : AST) : ∀ out : List Char,
    ast_print t out = (ast_print t []).bind fun s => Result.ret (out ++ s) := by
  induction t with
  | null => intro out; simp [ast_print]
  | number v => intro out; simp [ast_print]
  | negative b _ => intro out; simp [ast_print]
  | main b ih =>
    intro out
    simp only [ast_print]
    rw [ih (out ++ _), ih ([] ++ _)]
    cases ast_print b [] <;> simp
  | add l r ihl ihr | subtract l r ihl ihr | multiply l r ihl ihr | divide l r ihl ihr =>
    intro out
    simp only [ast_print]
    rw [ihl (out ++ _), ihl ([] ++ _)]
    cases ast_print l [] with
    | fault f => simp
    | timeout => simp
    | ret a =>
      simp only [Result.bind_ret]
      rw [ihr (out ++ _ ++ _ ++ _), ihr ([] ++ _ ++ _ ++ _)]
      cases ast_print r [] <;> simp

theorem render_binary (l r : AST) (op : List Char) :
    ((ast_print l ([] ++ "(".toList)).bind fun o1 =>
      (ast_print r (o1 ++ op)).bind fun o2 => Result.ret (o2 ++ ")".toList)) =
    (ast_print l []).bind fun a => (ast_print r []).bind fun b =>
      Result.ret ("(".toList ++ a ++ op ++ b ++ ")".toList) := by
  rw [ast_print_acc l]
  cases ast_print l [] with
  | fault f => simp
  | timeout => simp
  | ret a =>
    simp only [Result.bind_ret]
    rw [ast_print_acc r]
    cases ast_print r [] <;> simp

/-- On a well-formed tree `ast_print` returns. -/
theorem render_well_formed (t : AST) : well_formed t = true → ∃ s, render t = Result.ret s := by
  induction t with
  | null => intro h; simp [well_formed] at h
  | number v => intro _; exact ⟨_, rfl⟩
  | negative b _ => intro _; exact ⟨_, rfl⟩
  | main b ih =>
    intro h
    obtain ⟨s, hs⟩ := ih (by simpa [well_formed] using h)
    simp only [render, ast_print] at hs ⊢
    rw [ast_print_acc b, hs]
    exact ⟨_, rfl⟩
  | add l r ihl ihr | subtract l r ihl ihr | multiply l r ihl ihr | divide l r ihl ihr =>
    intro h
    simp only [well_formed, Bool.and_eq_true] at h
    obtain ⟨a, ha⟩ := ihl h.1
    obtain ⟨b, hb⟩ := ihr h.2
    simp only [render] at ha hb
    simp only [render, ast_print]
    rw [render_binary, ha, Result.bind_ret, hb]
    exact ⟨_, rfl⟩

/-- C8: the text `ast_print` writes, read as the function `render`, follows the
grammar: a number node gives the decimal text of its value, a `main` node gives
`main() = ` followed by the text of its body, and each of the four binary nodes
gives `(`, the text of the left child, the operator between two spaces, the
text of the right child and `)`; the tree `Add(Number(1), Number(2))` gives
`(1 + 2)`. -/
theorem render_grammar :
    (∀ v : Int, render (AST.number v) = Result.ret (fmt_d v)) ∧
    (∀ b : AST, render (AST.main b) =
      (render b).bind fun s => Result.ret ("main() = ".toList ++ s)) ∧
    (∀ l r : AST, render (AST.add l r) =
      (render l).bind fun a => (render r).bind fun b =>
        Result.ret ("(".toList ++ a ++ " + ".toList ++ b ++ ")".toList)) ∧
    (∀ l r : AST, render (AST.subtract l r) =
      (render l).bind fun a => (render r).bind fun b =>
        Result.ret ("(".toList ++ a ++ " - ".toList ++ b ++ ")".toList)) ∧
    (∀ l r : AST, render (AST.multiply l r) =
      (render l).bind fun a => (render r).bind fun b =>
        Result.ret ("(".toList ++ a ++ " * ".toList ++ b ++ ")".toList)) ∧
    (∀ l r : AST, render (AST.divide l r) =
      (render l).bind fun a => (render r).bind fun b =>
        Result.ret ("(".toList ++ a ++ " / ".toList ++ b ++ ")".toList)) ∧
    render (AST.add (AST.number 1) (AST.number 2)) = Result.ret "(1 + 2)".toList := by
  refine ⟨fun v => by simp [render, ast_print], fun b => ?_, fun l r => render_binary l r _,
    fun l r => render_binary l r _, fun l r => render_binary l r _,
    fun l r => render_binary l r _, by decide⟩
  simp only [render, ast_print]
  rw [ast_print_acc b]
  cases ast_print b [] <;> simp

/-- C10 (code defect shown at the tree `Negative(Number(1))`): `ast_free` calls
`free` on the root only, while the tree has two nodes, the body `[0]` and the
root `[]`; the body of a `negative` node is never released. -/
theorem ast_free_skips_negative_body :
    ast_free (AST.negative (AST.number 1)) [] = Result.ret [[]] ∧
    nodes (AST.negative (AST.number 1)) [] = [[0], []] := by decide

/-- On a well-formed tree without a `negative` node `ast_free` releases exactly
the nodes of the tree, children before their parent. -/
theorem ast_free_without_negative (t : AST) : well_formed t = true → has_negative t = false →
    ∀ path : List Nat, ast_free t path = Result.ret (nodes t path) := by
  induction t with
  | null => intro h; simp [well_formed] at h
  | negative b _ => intro _ h; simp [has_negative] at h
  | number v => intro _ _ path; rfl
  | main b ih =>
    intro h1 h2 path
    simp only [well_formed] at h1
    simp only [has_negative] at h2
    simp only [ast_free, nodes, ih h1 h2, Result.bind_ret]
  | add l r ihl ihr | subtract l r ihl ihr | multiply l r ihl ihr | divide l r ihl ihr =>
    intro h1 h2 path
    simp only [well_formed, Bool.and_eq_true] at h1
    simp only [has_negative, Bool.or_eq_false_iff] at h2
    simp only [ast_free, nodes, ihl h1.1 h2.1, ihr h1.2 h2.2, Result.bind_ret]

/-! ## The scan of `parse0` -/

theorem get?_append_add (suf : List Token) (k : Nat) : ∀ front : List Token,
    (front ++ suf).get? (front.length + k) = suf.get? k := by
  intro front
  induction front with
  | nil => simp
  | cons a front ih =>
    rw [List.cons_append, List.length_cons, Nat.add_right_comm, List.get?_cons_succ]
    exact ih

theorem tok_at_append (front : List Token) (t : Token) (rest : List Token) :
    tok_at (front ++ t :: rest) (front.length : Int) = some t := by
  have h := get?_append_add (t :: rest) 0 front
  simp only [Nat.add_zero] at h
  simp only [tok_at, Int.toNat_ofNat, h]
  simp

theorem tok_at_append_succ (front : List Token) (m n : Token) (rest : List Token) :
    tok_at (front ++ m :: n :: rest) ((front.length : Int) + 1) = some n := by
  have h := get?_append_add (m :: n :: rest) 1 front
  have e : ((front.length : Int) + 1).toNat = front.length + 1 := by omega
  have h0 : (0 : Int) ≤ (front.length : Int) + 1 := by omega
  simp only [tok_at, h0, if_true, e, h]
  rfl

/-- On a buffer whose part from index `front.length` on is `Rejected`, the scan of
`parse0` started at that index ends in the unexpected-token exit. -/
theorem parse0_rejects (junk : Int → AST) (suf : List Token) (hrej : Rejected suf) :
    ∀ (front : List Token) (fuel : Nat) (bl : Int), suf.length ≤ fuel →
      (front.length : Int) + suf.length ≤ bl →
      parse0 junk (front ++ suf) fuel front.length bl = Result.fault Fault.unexpected_token := by
  induction hrej with
  | stop t post h =>
    intro front fuel bl hf hb
    simp only [List.length_cons] at hf hb
    obtain ⟨n, rfl⟩ : ∃ n, fuel = n + 1 := ⟨fuel - 1, by omega⟩
    have hlt : (front.length : Int) < bl := by push_cast at hb; omega
    rw [parse0]
    simp only [hlt, if_true, tok_at_append]
    obtain ⟨h1, h2, h3⟩ := h
    cases ht : t.type <;> simp_all
  | pass t rest h _ ih =>
    intro front fuel bl hf hb
    simp only [List.length_cons] at hf hb
    obtain ⟨n, rfl⟩ : ∃ n, fuel = n + 1 := ⟨fuel - 1, by omega⟩
    have hlt : (front.length : Int) < bl := by push_cast at hb; omega
    have step := ih (front ++ [t]) n bl (by omega) (by simp; push_cast at hb; omega)
    simp only [List.append_assoc, List.singleton_append, List.length_append, List.length_singleton,
      Nat.cast_add, Nat.cast_one] at step
    rw [parse0]
    simp only [hlt, if_true, tok_at_append]
    rcases h with h | h <;> simp only [h] <;> exact step
  | skip m n rest hm hn _ ih =>
    intro front fuel bl hf hb
    simp only [List.length_cons] at hf hb
    obtain ⟨k, rfl⟩ : ∃ k, fuel = k + 1 := ⟨fuel - 1, by omega⟩
    have hlt : (front.length : Int) < bl := by push_cast at hb; omega
    have step := ih (front ++ [m, n]) k bl (by omega) (by simp; push_cast at hb; omega)
    simp only [List.append_assoc, List.cons_append, List.nil_append, List.length_append,
      List.length_cons, List.length_nil, Nat.cast_add, Nat.cast_one] at step
    rw [parse0]
    simp only [hlt, if_true, tok_at_append, hm, tok_at_append_succ, hn]
    convert step using 2

/-- On a buffer that holds a `number` token at `q` and a token `parse0` has no
case for at `q + 1`, a scan that starts at or before `q + 1` returns no root:
it cannot step over the pair. -/
theorem parse0_blocked (junk : Int → AST) (toks : List Token) (q : Int) (a b : Token)
    (ha : tok_at toks q = some a) (hat : a.type = Token_Type.number)
    (hb : tok_at toks (q + 1) = some b) (hb1 : b.type ≠ Token_Type.minus)
    (hb2 : b.type ≠ Token_Type.number) (hb3 : b.type ≠ Token_Type.lparen) :
    ∀ (fuel : Nat) (i bl : Int) (r : AST), i ≤ q + 1 → q + 1 < bl →
      parse0 junk toks fuel i bl ≠ Result.ret r := by
  intro fuel
  induction fuel with
  | zero =>
    intro i bl r hi hq
    have hlt : i < bl := by omega
    simp [parse0, hlt]
  | succ n ih =>
    intro i bl r hi hq
    have hlt : i < bl := by omega
    rw [parse0]
    simp only [hlt, if_true]
    by_cases hiq : i = q + 1
    · subst hiq
      simp only [hb]
      cases hty : b.type <;> simp_all
    · have hle : i ≤ q := by omega
      cases h1 : tok_at toks i with
      | none => simp
      | some t =>
        simp only []
        cases ht : t.type <;> simp only [] <;> try simp
        · exact ih _ _ _ (by omega) hq
        · exact ih _ _ _ (by omega) hq
        · have hne : i ≠ q := by
            rintro rfl
            rw [ha] at h1
            cases h1
            rw [hat] at ht
            cases ht
          cases h2 : tok_at toks (i + 1) with
          | none => simp
          | some nt =>
            simp only []
            split_ifs with hn hl
            · exact ih _ _ _ (by omega) hq
            · cases hf : find_closing_paren toks (i + 1) with
              | fault f => simp
              | timeout => simp
              | ret c =>
                simp only [Result.bind_ret]
                cases hbd : parse0 junk toks n (i + 1) c with
                | fault f => simp
                | timeout => simp
                | ret body =>
                  simp only [Result.bind_ret]
                  exact ih _ _ _ (by omega) hq
            · exact ih _ _ _ (by omega) hq

/-- On a `Blocked` buffer `parse0`, called on the whole buffer, returns no
root. -/
theorem parse0_blocked_top (junk : Int → AST) (toks : List Token) (h : Blocked toks)
    (fuel : Nat) (r : AST) : parse0 junk toks fuel 0 (sb_len toks) ≠ Result.ret r := by
  obtain ⟨pre, a, b, post, rfl, hat, hb1, hb2, hb3⟩ := h
  refine parse0_blocked junk _ pre.length a b (tok_at_append _ _ _) hat
    (tok_at_append_succ _ _ _ _) hb1 hb2 hb3 fuel 0 _ r (by omega) ?_
  simp only [sb_len, List.length_append, List.length_cons]
  push_cast
  omega

theorem Blocked.prepend (front : List Token) {toks : List Token} (h : Blocked toks) :
    Blocked (front ++ toks) := by
  obtain ⟨pre, a, b, post, rfl, hrest⟩ := h
  exact ⟨front ++ pre, a, b, post, by simp, hrest⟩

theorem Blocked.cons (t : Token) {toks : List Token} (h : Blocked toks) :
    Blocked (t :: toks) := Blocked.prepend [t] h

/-- The lexer loop started on `buf` returns `buf` followed by what it returns
when started on the empty buffer. -/
theorem tokenize_loop_acc : ∀ (fuel : Nat) (s : List Char) (buf : List Token),
    tokenize_loop fuel s buf =
      (tokenize_loop fuel s []).bind fun ts => Result.ret (buf ++ ts) := by
  intro fuel
  induction fuel with
  | zero =>
    intro s buf
    cases s with
    | nil => simp [tokenize_loop_nil]
    | cons c rest =>
      by_cases h0 : c = Char.ofNat 0
      · simp [tokenize_loop_nul _ _ _ _ h0]
      · simp [tokenize_loop, h0]
  | succ n ih =>
    intro s buf
    cases s with
    | nil => simp [tokenize_loop_nil]
    | cons c rest =>
      by_cases h0 : c = Char.ofNat 0
      · simp [tokenize_loop_nul _ _ _ _ h0]
      · rw [tokenize_loop, tokenize_loop]
        simp only [h0, if_false]
        cases hs : scan_token c rest with
        | fault f => simp
        | timeout => simp
        | ret p =>
          obtain ⟨t, s2⟩ := p
          simp only [sb_push]
          rw [ih s2 (buf ++ [t]), ih s2 ([] ++ [t])]
          cases tokenize_loop n s2 [] <;> simp

/-- A text the lexer turns into the tokens `toks` once `n` iterations are
allowed is, under any budget, either not finished or turned into `toks`. -/
theorem tokenize_loop_timeout_or (s : List Char) (buf toks : List Token) (n : Nat)
    (h : ∀ fuel : Nat, tokenize_loop (fuel + n) s buf = Result.ret toks) (fuel : Nat) :
    tokenize_loop fuel s buf = Result.timeout ∨ tokenize_loop fuel s buf = Result.ret toks := by
  cases ht : tokenize_loop fuel s buf with
  | timeout => exact Or.inl rfl
  | fault f =>
    have := tokenize_loop_mono n _ _ _ _ ht (by simp)
    rw [h fuel] at this
    cases this
  | ret x =>
    have := tokenize_loop_mono n _ _ _ _ ht (by simp)
    rw [h fuel] at this
    exact Or.inr this.symm

/-- A text whose tokens are `Blocked` yields no tree, whatever `token_buffer`
holds on entry, whatever `current` holds and under any budget. -/
theorem ast_generate_from_expr_blocked (s : List Char) (toks : List Token) (n : Nat)
    (hlex : ∀ (fuel : Nat) (buf : List Token),
      tokenize_loop (fuel + n) s buf = Result.ret (buf ++ toks))
    (hb : Blocked toks) (tb : Option (List Token)) (junk : Int → AST) (fuel : Nat) (r : AST) :
    ast_generate_from_expr tb junk fuel s ≠ Result.ret r := by
  cases tb with
  | none => exact ast_generate_from_expr_none junk fuel s r
  | some buf =>
    unfold ast_generate_from_expr
    rw [tokenize_expr_some]
    rcases tokenize_loop_timeout_or s buf _ n (fun f => hlex f buf) fuel with e | e
    · rw [e]; simp
    · rw [e]
      simp only [Result.bind_ret]
      exact parse0_blocked_top junk _ (Blocked.prepend buf hb) fuel r

/-! ## Printed trees fed back to the parser -/

theorem fmt_d_nonneg {v : Int} (h : 0 ≤ v) : fmt_d v = Nat.toDigits 10 v.toNat := by
  simp [fmt_d, Int.not_lt.2 h]

theorem ast_print_additive (t : AST) : additive t = true → ∀ out : List Char,
    ast_print t out = Result.ret (out ++ printed t) := by
  induction t with
  | null => intro h; simp [additive] at h
  | main b _ => intro h; simp [additive] at h
  | negative b _ => intro h; simp [additive] at h
  | multiply l r _ _ => intro h; simp [additive] at h
  | divide l r _ _ => intro h; simp [additive] at h
  | number v => intro _ out; simp [ast_print, printed]
  | add l r ihl ihr | subtract l r ihl ihr =>
    intro h out
    simp only [additive, Bool.and_eq_true] at h
    simp only [ast_print, ihl h.1, ihr h.2, Result.bind_ret, printed, List.append_assoc]

theorem tokenize_loop_char (c : Char) (t : Token) (rest : List Char)
    (h0 : c ≠ Char.ofNat 0) (hs : scan_token c rest = Result.ret (t, rest))
    (fuel : Nat) (buf : List Token) :
    tokenize_loop (fuel + 1) (c :: rest) buf = tokenize_loop fuel rest (buf ++ [t]) := by
  rw [tokenize_loop]
  simp only [h0, if_false, hs, sb_push]

theorem tokenize_loop_lparen (rest : List Char) (fuel : Nat) (buf : List Token) :
    tokenize_loop (fuel + 1) ('(' :: rest) buf =
      tokenize_loop fuel rest (buf ++ [mk_token Token_Type.lparen]) :=
  tokenize_loop_char _ _ _ (by decide) (by simp [scan_token, Char.isDigit]) _ _

theorem tokenize_loop_rparen (rest : List Char) (fuel : Nat) (buf : List Token) :
    tokenize_loop (fuel + 1) (')' :: rest) buf =
      tokenize_loop fuel rest (buf ++ [mk_token Token_Type.rparen]) :=
  tokenize_loop_char _ _ _ (by decide) (by simp [scan_token, Char.isDigit]) _ _

theorem tokenize_loop_space (rest : List Char) (fuel : Nat) (buf : List Token) :
    tokenize_loop (fuel + 1) (' ' :: rest) buf =
      tokenize_loop fuel rest (buf ++ [mk_token Token_Type.number]) :=
  tokenize_loop_char _ _ _ (by decide) (by simp [scan_token]) _ _

theorem tokenize_loop_plus (rest : List Char) (fuel : Nat) (buf : List Token) :
    tokenize_loop (fuel + 1) ('+' :: rest) buf =
      tokenize_loop fuel rest (buf ++ [mk_token Token_Type.plus]) :=
  tokenize_loop_char _ _ _ (by decide) (by simp [scan_token, Char.isDigit]) _ _

theorem tokenize_loop_minus_space (rest : List Char) (fuel : Nat) (buf : List Token) :
    tokenize_loop (fuel + 1) ('-' :: ' ' :: rest) buf =
      tokenize_loop fuel (' ' :: rest) (buf ++ [mk_token Token_Type.minus]) :=
  tokenize_loop_char _ _ _ (by decide) (by simp [scan_token, Char.isDigit, next_char]) _ _

/-- The lexer turns the printed text of an additive tree into `printed_tokens`,
one execution of the loop body per token. -/
theorem tokenize_loop_printed (t : AST) : additive t = true →
    ∀ (rest : List Char), (∀ d, rest.head? = some d → d.isDigit = false) →
    ∀ (fuel : Nat) (buf : List Token),
      tokenize_loop (fuel + (printed_tokens t).length) (printed t ++ rest) buf =
        tokenize_loop fuel rest (buf ++ printed_tokens t) := by
  induction t with
  | null => intro h; simp [additive] at h
  | main b _ => intro h; simp [additive] at h
  | negative b _ => intro h; simp [additive] at h
  | multiply l r _ _ => intro h; simp [additive] at h
  | divide l r _ _ => intro h; simp [additive] at h
  | number v =>
    intro h rest hrest fuel buf
    have hv : 0 ≤ v := by simpa [additive] using h
    simp only [printed, printed_tokens, fmt_d_nonneg hv, List.length_singleton]
    have hd := toDigits_isDigit v.toNat
    cases hds : Nat.toDigits 10 v.toNat with
    | nil => exact absurd hds (toDigits_ne_nil _)
    | cons c s =>
      rw [hds] at hd
      exact tokenize_loop_digits c s rest hd hrest fuel buf
  | add l r ihl ihr =>
    intro h rest hrest fuel buf
    simp only [additive, Bool.and_eq_true] at h
    have e : fuel + (printed_tokens (AST.add l r)).length =
        ((((fuel + 1) + (printed_tokens r).length) + 1 + 1 + 1) + (printed_tokens l).length) + 1 := by
      simp [printed_tokens]; omega
    have ep : printed (AST.add l r) ++ rest =
        '(' :: (printed l ++ (' ' :: '+' :: ' ' :: (printed r ++ (')' :: rest)))) := by
      simp [printed]
    rw [e, ep, tokenize_loop_lparen, ihl h.1 _ (by simp), tokenize_loop_space, tokenize_loop_plus,
      tokenize_loop_space, ihr h.2 _ (by simp), tokenize_loop_rparen]
    simp [printed_tokens]
  | subtract l r ihl ihr =>
    intro h rest hrest fuel buf
    simp only [additive, Bool.and_eq_true] at h
    have e : fuel + (printed_tokens (AST.subtract l r)).length =
        ((((fuel + 1) + (printed_tokens r).length) + 1 + 1 + 1) + (printed_tokens l).length) + 1 := by
      simp [printed_tokens]; omega
    have ep : printed (AST.subtract l r) ++ rest =
        '(' :: (printed l ++ (' ' :: '-' :: ' ' :: (printed r ++ (')' :: rest)))) := by
      simp [printed]
    rw [e, ep, tokenize_loop_lparen, ihl h.1 _ (by simp), tokenize_loop_space,
      tokenize_loop_minus_space, tokenize_loop_space, ihr h.2 _ (by simp), tokenize_loop_rparen]
    simp [printed_tokens]

theorem printed_tokens_length_le (t : AST) : additive t = true →
    (printed_tokens t).length ≤ (printed t).length := by
  induction t with
  | null => intro h; simp [additive] at h
  | main b _ => intro h; simp [additive] at h
  | negative b _ => intro h; simp [additive] at h
  | multiply l r _ _ => intro h; simp [additive] at h
  | divide l r _ _ => intro h; simp [additive] at h
  | number v =>
    intro h
    have hv : 0 ≤ v := by simpa [additive] using h
    simp only [printed, printed_tokens, fmt_d_nonneg hv, List.length_singleton]
    exact List.length_pos.2 (toDigits_ne_nil _)
  | add l r ihl ihr | subtract l r ihl ihr =>
    intro h
    simp only [additive, Bool.and_eq_true] at h
    have := ihl h.1
    have := ihr h.2
    simp [printed, printed_tokens]
    omega

theorem rejected_printed_append (t : AST) : additive t = true →
    ∀ post : List Token, Rejected post → Rejected (printed_tokens t ++ post) := by
  induction t with
  | null => intro h; simp [additive] at h
  | main b _ => intro h; simp [additive] at h
  | negative b _ => intro h; simp [additive] at h
  | multiply l r _ _ => intro h; simp [additive] at h
  | divide l r _ _ => intro h; simp [additive] at h
  | number v =>
    intro _ post hp
    exact Rejected.pass _ _ (Or.inl rfl) hp
  | add l r ihl _ =>
    intro h post _
    simp only [additive, Bool.and_eq_true] at h
    simp only [printed_tokens, List.append_assoc, List.singleton_append, List.cons_append,
      List.nil_append]
    refine Rejected.pass _ _ (Or.inr rfl) (ihl h.1 _ ?_)
    exact Rejected.pass _ _ (Or.inl rfl) (Rejected.stop _ _ (by decide))
  | subtract l r ihl ihr =>
    intro h post _
    simp only [additive, Bool.and_eq_true] at h
    simp only [printed_tokens, List.append_assoc, List.singleton_append, List.cons_append,
      List.nil_append]
    refine Rejected.pass _ _ (Or.inr rfl) (ihl h.1 _ ?_)
    refine Rejected.pass _ _ (Or.inl rfl) (Rejected.skip _ _ _ rfl rfl (ihr h.2 _ ?_))
    exact Rejected.stop _ _ (by decide)

/-- The tokens of the printed text of a canonical tree are `Rejected`. -/
theorem rejected_printed (t : AST) (h : canonical t = true) : Rejected (printed_tokens t) := by
  have key : ∀ l r : AST, additive l = true → additive r = true →
      Rejected (printed_tokens (AST.subtract l r)) ∧ Rejected (printed_tokens (AST.add l r)) := by
    intro l r hl hr
    simp only [printed_tokens, List.append_assoc, List.singleton_append, List.cons_append,
      List.nil_append]
    constructor
    · refine Rejected.pass _ _ (Or.inr rfl) (rejected_printed_append l hl _ ?_)
      refine Rejected.pass _ _ (Or.inl rfl)
        (Rejected.skip _ _ _ rfl rfl (rejected_printed_append r hr _ ?_))
      exact Rejected.stop _ _ (by decide)
    · refine Rejected.pass _ _ (Or.inr rfl) (rejected_printed_append l hl _ ?_)
      exact Rejected.pass _ _ (Or.inl rfl) (Rejected.stop _ _ (by decide))
  cases t with
  | add l r =>
    simp only [canonical, Bool.and_eq_true] at h
    exact (key l r h.1 h.2).2
  | subtract l r =>
    simp only [canonical, Bool.and_eq_true] at h
    exact (key l r h.1 h.2).1
  | _ => simp [canonical] at h

theorem canonical_additive (t : AST) (h : canonical t = true) : additive t = true := by
  cases t <;> simp_all [canonical, additive]

theorem blocked_printed_append (t : AST) : additive t = true →
    ∀ (b : Token) (post : List Token), b.type ≠ Token_Type.minus → b.type ≠ Token_Type.number →
      b.type ≠ Token_Type.lparen → Blocked (printed_tokens t ++ b :: post) := by
  induction t with
  | null => intro h; simp [additive] at h
  | main b _ => intro h; simp [additive] at h
  | negative b _ => intro h; simp [additive] at h
  | multiply l r _ _ => intro h; simp [additive] at h
  | divide l r _ _ => intro h; simp [additive] at h
  | number v =>
    intro _ b post h1 h2 h3
    exact ⟨[], _, b, post, rfl, rfl, h1, h2, h3⟩
  | add l r _ _ =>
    intro _ b post _ _ _
    refine ⟨mk_token Token_Type.lparen :: printed_tokens l, mk_token Token_Type.number,
      mk_token Token_Type.plus,
      mk_token Token_Type.number :: (printed_tokens r ++ mk_token Token_Type.rparen :: b :: post),
      ?_, rfl, by decide, by decide, by decide⟩
    simp only [printed_tokens, List.append_assoc, List.singleton_append, List.cons_append,
      List.nil_append]
  | subtract l r _ ihr =>
    intro h b post _ _ _
    simp only [additive, Bool.and_eq_true] at h
    have hb := ihr h.2 (mk_token Token_Type.rparen) (b :: post) (by decide) (by decide)
      (by decide)
    have := Blocked.prepend (mk_token Token_Type.lparen :: printed_tokens l ++
      [mk_token Token_Type.number, mk_token Token_Type.minus, mk_token Token_Type.number]) hb
    simpa [printed_tokens] using this

/-- The tokens of the printed text of a canonical tree are `Blocked`. -/
theorem blocked_printed (t : AST) (h : canonical t = true) : Blocked (printed_tokens t) := by
  have ha := canonical_additive t h
  cases t with
  | add l r =>
    refine ⟨mk_token Token_Type.lparen :: printed_tokens l, mk_token Token_Type.number,
      mk_token Token_Type.plus,
      mk_token Token_Type.number :: (printed_tokens r ++ [mk_token Token_Type.rparen]),
      ?_, rfl, by decide, by decide, by decide⟩
    simp only [printed_tokens, List.append_assoc, List.singleton_append, List.cons_append,
      List.nil_append]
  | subtract l r =>
    simp only [canonical, Bool.and_eq_true] at h
    have hb := blocked_printed_append r h.2 (mk_token Token_Type.rparen) [] (by decide)
      (by decide) (by decide)
    have := Blocked.prepend (mk_token Token_Type.lparen :: printed_tokens l ++
      [mk_token Token_Type.number, mk_token Token_Type.minus, mk_token Token_Type.number]) hb
    simpa [printed_tokens] using this
  | _ => simp [canonical] at h

/-- C9 (code defect shown at the tree `Add(Number(1), Number(2))` and its text
`(1 + 2)`): for every tree `t` built from `add` and `subtract` nodes, at least
one, over non-negative number leaves, `ast_generate_from_expr` applied to the
text `ast_print` writes for `t` returns no tree at all, so not `t`: whatever
`token_buffer` and `current` hold and under every budget; and with a NULL
`token_buffer` on entry, once as many iterations as the text has characters are
allowed, the call ends in the unexpected-token exit of `parse0`. -/
theorem ast_generate_from_expr_printed_text_yields_no_tree (t : AST) (s : List Char)
    (ht : canonical t = true) (hs : render t = Result.ret s) :
    (∀ (tb : Option (List Token)) (junk : Int → AST) (fuel : Nat) (r : AST),
      ast_generate_from_expr tb junk fuel s ≠ Result.ret r) ∧
    ∀ (junk : Int → AST) (fuel : Nat),
      ast_generate_from_expr (some []) junk (fuel + s.length) s =
        Result.fault Fault.unexpected_token := by
  have ha := canonical_additive t ht
  have hp : s = printed t := by
    have := ast_print_additive t ha []
    rw [render, this] at hs
    simpa using hs.symm
  subst hp
  constructor
  · intro tb junk fuel r
    refine ast_generate_from_expr_blocked _ (printed_tokens t) (printed_tokens t).length ?_
      (blocked_printed t ht) tb junk fuel r
    intro f buf
    have hl := tokenize_loop_printed t ha [] (by simp) f buf
    rw [tokenize_loop_nil] at hl
    simpa using hl
  · intro junk fuel
    have hle := printed_tokens_length_le t ha
    have hl := tokenize_loop_printed t ha [] (by simp)
      (fuel + (printed t).length - (printed_tokens t).length) []
    rw [Nat.sub_add_cancel (by omega), tokenize_loop_nil] at hl
    simp only [List.append_nil, List.nil_append] at hl
    unfold ast_generate_from_expr
    rw [tokenize_expr_some, hl]
    simp only [Result.bind_ret]
    have := parse0_rejects junk _ (rejected_printed t ht) [] (fuel + (printed t).length)
      (sb_len (printed_tokens t)) (by omega) (by simp [sb_len])
    simpa using this

/-- Witness for `ast_generate_from_expr_printed_text_yields_no_tree` at the
tree `Add(Number(1), Number(2))` and its text `(1 + 2)`. -/
theorem ast_generate_from_expr_printed_text_yields_no_tree_witness :
    canonical (AST.add (AST.number 1) (AST.number 2)) = true ∧
    render (AST.add (AST.number 1) (AST.number 2)) = Result.ret "(1 + 2)".toList ∧
    ast_generate_from_expr (some []) (fun _ => AST.null) 7 "(1 + 2)".toList
      ≠ Result.ret (AST.add (AST.number 1) (AST.number 2)) ∧
    ast_generate_from_expr (some []) (fun _ => AST.null) (0 + "(1 + 2)".toList.length)
      "(1 + 2)".toList = Result.fault Fault.unexpected_token :=
  ⟨by decide, by decide,
    (ast_generate_from_expr_printed_text_yields_no_tree (AST.add (AST.number 1) (AST.number 2))
      "(1 + 2)".toList (by decide) (by decide)).1 _ _ _ _,
    (ast_generate_from_expr_printed_text_yields_no_tree (AST.add (AST.number 1) (AST.number 2))
      "(1 + 2)".toList (by decide) (by decide)).2 _ _⟩

/-! ## Operator chains -/

theorem chain_tail_head (ops : List (Bool × Nat)) :
    ∀ d, (chain_tail ops).head? = some d → d.isDigit = false := by
  intro d h
  cases ops with
  | nil => simp [chain_tail] at h
  | cons p rest =>
    obtain ⟨b, n⟩ := p
    simp only [chain_tail, List.head?_cons, Option.some.injEq] at h
    subst h
    decide

theorem tokenize_loop_toDigits (n : Nat) (rest : List Char)
    (hrest : ∀ d, rest.head? = some d → d.isDigit = false) (fuel : Nat) (buf : List Token) :
    tokenize_loop (fuel + 1) (Nat.toDigits 10 n ++ rest) buf =
      tokenize_loop fuel rest (buf ++ [number_token (scan_digits 0 (Nat.toDigits 10 n)).1]) := by
  have hd := toDigits_isDigit n
  cases hds : Nat.toDigits 10 n with
  | nil => exact absurd hds (toDigits_ne_nil _)
  | cons c s =>
    rw [hds] at hd
    exact tokenize_loop_digits c s rest hd hrest fuel buf

/-- The lexer turns the tail of a chain into `chain_tail_tokens`. -/
theorem tokenize_loop_chain_tail (ops : List (Bool × Nat)) : ∀ (fuel : Nat) (buf : List Token),
    tokenize_loop (fuel + (chain_tail_tokens ops).length) (chain_tail ops) buf =
      Result.ret (buf ++ chain_tail_tokens ops) := by
  induction ops with
  | nil => intro fuel buf; simp [chain_tail, chain_tail_tokens, tokenize_loop_nil]
  | cons p rest ih =>
    intro fuel buf
    obtain ⟨b, n⟩ := p
    have e : fuel + (chain_tail_tokens ((b, n) :: rest)).length =
        (fuel + (chain_tail_tokens rest).length) + 1 + 1 + 1 + 1 := by
      simp [chain_tail_tokens]; omega
    rw [e]
    cases b with
    | true =>
      simp only [chain_tail, op_char, if_true]
      rw [tokenize_loop_space, tokenize_loop_plus, tokenize_loop_space,
        tokenize_loop_toDigits _ _ (chain_tail_head rest), ih]
      simp [chain_tail_tokens]
    | false =>
      simp only [chain_tail, op_char, Bool.false_eq_true, if_false]
      rw [tokenize_loop_space, tokenize_loop_minus_space, tokenize_loop_space,
        tokenize_loop_toDigits _ _ (chain_tail_head rest), ih]
      simp [chain_tail_tokens]

theorem chain_tail_tokens_length_le (ops : List (Bool × Nat)) :
    (chain_tail_tokens ops).length ≤ (chain_tail ops).length := by
  induction ops with
  | nil => simp [chain_tail, chain_tail_tokens]
  | cons p rest ih =>
    obtain ⟨b, n⟩ := p
    have := List.length_pos.2 (toDigits_ne_nil n)
    simp [chain_tail, chain_tail_tokens]
    omega

/-- The tokens of a chain tail with a `+` among its operators are `Rejected`. -/
theorem rejected_chain_tail (ops : List (Bool × Nat)) :
    ops.any (fun p => p.1) = true → Rejected (chain_tail_tokens ops) := by
  induction ops with
  | nil => intro h; simp at h
  | cons p rest ih =>
    intro h
    obtain ⟨b, n⟩ := p
    cases b with
    | true =>
      exact Rejected.pass _ _ (Or.inl rfl) (Rejected.stop _ _ (by decide))
    | false =>
      have hr : rest.any (fun p => p.1) = true := by simpa using h
      exact Rejected.pass _ _ (Or.inl rfl)
        (Rejected.skip _ _ _ rfl rfl (Rejected.pass _ _ (Or.inl rfl) (ih hr)))

/-- The tokens of a chain tail with a `+` among its operators are `Blocked`. -/
theorem blocked_chain_tail (ops : List (Bool × Nat)) :
    ops.any (fun p => p.1) = true → Blocked (chain_tail_tokens ops) := by
  induction ops with
  | nil => intro h; simp at h
  | cons p rest ih =>
    intro h
    obtain ⟨b, n⟩ := p
    cases b with
    | true =>
      exact ⟨[], mk_token Token_Type.number, mk_token Token_Type.plus, _, rfl, rfl,
        by decide, by decide, by decide⟩
    | false =>
      have hr : rest.any (fun p => p.1) = true := by simpa using h
      exact Blocked.cons _ (Blocked.cons _ (Blocked.cons _ (Blocked.cons _ (ih hr))))

/-- The lexer turns a chain into its first number token followed by
`chain_tail_tokens`. -/
theorem tokenize_loop_chain_text (n0 : Nat) (ops : List (Bool × Nat)) (fuel : Nat)
    (buf : List Token) :
    tokenize_loop (fuel + ((chain_tail_tokens ops).length + 1)) (chain_text n0 ops) buf =
      Result.ret (buf ++ number_token (scan_digits 0 (Nat.toDigits 10 n0)).1 ::
        chain_tail_tokens ops) := by
  rw [show fuel + ((chain_tail_tokens ops).length + 1) =
    (fuel + (chain_tail_tokens ops).length) + 1 by omega]
  rw [chain_text, tokenize_loop_toDigits _ _ (chain_tail_head ops), tokenize_loop_chain_tail]
  simp

/-- C2 (code defect shown at the text `1 + 2`): for every first operand `n0`
and every list of operators and operands in which at least one operator is
`+`, `ast_generate_from_expr` applied to the text `n0 op1 n1 ... opk nk`
returns no tree at all, so not the left-nested tree: whatever `token_buffer`
and `current` hold and under every budget; and with a NULL `token_buffer` on
entry, once as many iterations as the text has characters are allowed, the
call ends in the unexpected-token exit of `parse0`. -/
theorem ast_generate_from_expr_chain_with_plus_yields_no_tree (n0 : Nat)
    (ops : List (Bool × Nat)) (h : ops.any (fun p => p.1) = true) :
    (∀ (tb : Option (List Token)) (junk : Int → AST) (fuel : Nat) (r : AST),
      ast_generate_from_expr tb junk fuel (chain_text n0 ops) ≠ Result.ret r) ∧
    ∀ (junk : Int → AST) (fuel : Nat),
      ast_generate_from_expr (some []) junk (fuel + (chain_text n0 ops).length)
        (chain_text n0 ops) = Result.fault Fault.unexpected_token := by
  constructor
  · intro tb junk fuel r
    exact ast_generate_from_expr_blocked _ _ _
      (fun f buf => tokenize_loop_chain_text n0 ops f buf)
      (Blocked.cons _ (blocked_chain_tail ops h)) tb junk fuel r
  · intro junk fuel
    have hle := chain_tail_tokens_length_le ops
    have hpos := List.length_pos.2 (toDigits_ne_nil n0)
    have e : fuel + (chain_text n0 ops).length =
        (fuel + (chain_text n0 ops).length - (chain_tail_tokens ops).length - 1) +
          ((chain_tail_tokens ops).length + 1) := by
      simp only [chain_text, List.length_append]; omega
    have hl : tokenize_loop (fuel + (chain_text n0 ops).length) (chain_text n0 ops) [] =
        Result.ret (number_token (scan_digits 0 (Nat.toDigits 10 n0)).1 ::
          chain_tail_tokens ops) := by
      rw [e, tokenize_loop_chain_text]
      simp
    unfold ast_generate_from_expr
    rw [tokenize_expr_some, hl]
    simp only [Result.bind_ret]
    have hrej : Rejected (number_token (scan_digits 0 (Nat.toDigits 10 n0)).1 ::
        chain_tail_tokens ops) := Rejected.pass _ _ (Or.inl rfl) (rejected_chain_tail ops h)
    have := parse0_rejects junk _ hrej [] (fuel + (chain_text n0 ops).length)
      (sb_len (number_token (scan_digits 0 (Nat.toDigits 10 n0)).1 :: chain_tail_tokens ops))
      (by simp only [chain_text, List.length_append, List.length_cons]; omega) (by simp [sb_len])
    simpa using this

/-- Witness for `ast_generate_from_expr_chain_with_plus_yields_no_tree` at the
text `1 + 2`. -/
theorem ast_generate_from_expr_chain_with_plus_yields_no_tree_witness :
    [(true, 2)].any (fun p => p.1) = true ∧
    chain_text 1 [(true, 2)] = "1 + 2".toList ∧
    ast_generate_from_expr (some []) (fun _ => AST.null) 5 (chain_text 1 [(true, 2)])
      ≠ Result.ret (AST.add (AST.number 1) (AST.number 2)) ∧
    ast_generate_from_expr (some []) (fun _ => AST.null) (0 + (chain_text 1 [(true, 2)]).length)
      (chain_text 1 [(true, 2)]) = Result.fault Fault.unexpected_token :=
  ⟨by decide, by decide,
    (ast_generate_from_expr_chain_with_plus_yields_no_tree 1 [(true, 2)] (by decide)).1 _ _ _ _,
    (ast_generate_from_expr_chain_with_plus_yields_no_tree 1 [(true, 2)] (by decide)).2 _ _⟩

/-- The chain with operators `+`, `-` and operands 1, 2, 3 is the text
`1 + 2 - 3`. -/
theorem chain_text_one_plus_two_minus_three :
    chain_text 1 [(true, 2), (false, 3)] = "1 + 2 - 3".toList := by
  decide

/-! ## Texts on which the lexer does not advance -/

theorem next_char_toDigits (n : Nat) (rest : List Char) :
    next_char ('-' :: (Nat.toDigits 10 n ++ rest)) ≠ ' ' := by
  have hd := toDigits_isDigit n
  cases hds : Nat.toDigits 10 n with
  | nil => exact absurd hds (toDigits_ne_nil _)
  | cons c s =>
    rw [hds] at hd
    exact isDigit_ne_space (hd c (by simp))

/-- C4 (code defect shown at the text `-5`, here for every `n`): on `-` directly
followed by the decimal digits of `n`, `ast_generate_from_expr` does not return
within any number of iterations, whatever buffer `token_buffer` addresses on
entry: the lexer stays on the `-`.  No tree is returned either when
`token_buffer` addresses no buffer. -/
theorem ast_generate_from_expr_negative_literal_never_returns (buf : List Token)
    (junk : Int → AST) (fuel : Nat) :
    ast_generate_from_expr (some buf) junk fuel "-5".toList = Result.timeout ∧
    (∀ n : Nat, ast_generate_from_expr (some buf) junk fuel ('-' :: Nat.toDigits 10 n)
      = Result.timeout) ∧
    ∀ (n : Nat) (r : AST),
      ast_generate_from_expr none junk fuel ('-' :: Nat.toDigits 10 n) ≠ Result.ret r := by
  have key : ∀ n : Nat,
      ast_generate_from_expr (some buf) junk fuel ('-' :: Nat.toDigits 10 n)
        = Result.timeout := by
    intro n
    have h := next_char_toDigits n []
    rw [List.append_nil] at h
    simp [ast_generate_from_expr, tokenize_expr, tokenize_loop_stuck _ h]
  exact ⟨key 5, key, fun n r => ast_generate_from_expr_none junk fuel _ r⟩

/-- C5 (code defect shown at the text `-(1 + 2)`): `ast_generate_from_expr`
does not return within any number of iterations on `-(1 + 2)`, nor on any text
`-(a + b)` with `a` and `b` written in decimal, whatever buffer `token_buffer`
addresses on entry: the lexer stays on the `-`.  No tree is returned either
when `token_buffer` addresses no buffer. -/
theorem ast_generate_from_expr_negated_paren_never_returns (buf : List Token)
    (junk : Int → AST) (fuel : Nat) :
    ast_generate_from_expr (some buf) junk fuel "-(1 + 2)".toList = Result.timeout ∧
    (∀ a b : Nat, ast_generate_from_expr (some buf) junk fuel
      ("-(".toList ++ Nat.toDigits 10 a ++ " + ".toList ++ Nat.toDigits 10 b ++ ")".toList) =
      Result.timeout) ∧
    ∀ r : AST, ast_generate_from_expr none junk fuel "-(1 + 2)".toList ≠ Result.ret r := by
  have h : ∀ r : List Char, next_char ('-' :: '(' :: r) ≠ ' ' := fun r => by simp [next_char]
  have key : ∀ r : List Char,
      ast_generate_from_expr (some buf) junk fuel ('-' :: '(' :: r) = Result.timeout := by
    intro r
    unfold ast_generate_from_expr
    rw [tokenize_expr_some, tokenize_loop_stuck _ (h r)]
    rfl
  refine ⟨key _, fun a b => ?_, fun r => ast_generate_from_expr_none junk fuel _ r⟩
  have e : "-(".toList ++ Nat.toDigits 10 a ++ " + ".toList ++ Nat.toDigits 10 b ++ ")".toList =
      '-' :: ('(' :: (Nat.toDigits 10 a ++ " + ".toList ++ Nat.toDigits 10 b ++ ")".toList)) := by
    simp
  rw [e]
  exact key _

/-- C6 (code defect shown at the text `-&`): the text `-&` holds the unsupported
character `&`, yet `tokenize_expr` does not fail with the unsupported-character
error: it does not return within any number of iterations, whatever buffer
`token_buffer` addresses on entry, and when `token_buffer` addresses no buffer
it ends in the fault of the first push.  The text `1 & 2` does fail with that
error. -/
theorem tokenize_expr_unsupported_after_minus_not_reported :
    ('&' ∈ "-&".toList ∧ supported '&' = false) ∧
    (∀ (fuel : Nat) (buf : List Token),
      tokenize_expr (some buf) fuel "-&".toList = Result.timeout) ∧
    (∀ (fuel : Nat) (buf : List Token), tokenize_expr (some buf) (3 + fuel) "1 & 2".toList =
      Result.fault (Fault.unsupported_char '&')) ∧
    (∀ fuel : Nat, tokenize_expr none (fuel + 1) "-&".toList =
      Result.fault Fault.wild_pointer) := by
  refine ⟨by decide, fun fuel buf => ?_, fun fuel buf => ?_, fun fuel => rfl⟩
  · have e : tokenize_loop fuel "-&".toList buf = Result.timeout :=
      tokenize_loop_stuck _ (by decide) fuel buf
    rw [tokenize_expr_some, e]
    rfl
  · have e : tokenize_loop 3 "1 & 2".toList buf = Result.fault (Fault.unsupported_char '&') := by
      simp [tokenize_loop, scan_token, scan_digits, Char.isDigit, wrap32, sb_push]
    rw [tokenize_expr_some, tokenize_loop_mono fuel _ _ _ _ e (by simp)]
    rfl

theorem scan_digits_subset : ∀ (s : List Char) (v : Int), ∀ x ∈ (scan_digits v s).2, x ∈ s := by
  intro s
  induction s with
  | nil => intro v x hx; simp [scan_digits] at hx
  | cons c s ih =>
    intro v x hx
    rw [scan_digits] at hx
    split_ifs at hx
    · exact List.mem_cons_of_mem _ (ih _ x hx)
    · exact hx

theorem scan_token_ret_subset (c : Char) (rest : List Char) (t : Token) (s : List Char)
    (h : scan_token c rest = Result.ret (t, s)) : ∀ x ∈ s, x ∈ c :: rest := by
  unfold scan_token at h
  split_ifs at h <;> simp only [Result.ret.injEq, Prod.mk.injEq] at h <;>
    first
    | (obtain ⟨_, rfl⟩ := h; exact fun x hx => List.mem_cons_of_mem _ hx)
    | (obtain ⟨_, rfl⟩ := h; exact scan_digits_subset _ _)

theorem scan_token_fault (c : Char) (rest : List Char) (f : Fault)
    (h : scan_token c rest = Result.fault f) :
    f = Fault.unsupported_char c ∧ supported c = false := by
  unfold scan_token at h
  simp only [supported]
  split_ifs at h
  simp_all

theorem scan_token_ne_timeout (c : Char) (rest : List Char) :
    scan_token c rest ≠ Result.timeout := by
  unfold scan_token
  split_ifs <;> simp

/-- When the lexer loop fails, it reports a character of the text that the lexer
has no case for. -/
theorem tokenize_loop_fault_sound : ∀ (fuel : Nat) (s : List Char) (buf : List Token) (f : Fault),
    tokenize_loop fuel s buf = Result.fault f →
    ∃ c ∈ s, f = Fault.unsupported_char c ∧ supported c = false := by
  intro fuel
  induction fuel with
  | zero =>
    intro s buf f h
    cases s with
    | nil => simp [tokenize_loop] at h
    | cons c rest =>
      rw [tokenize_loop] at h
      split_ifs at h
  | succ n ih =>
    intro s buf f h
    cases s with
    | nil => simp [tokenize_loop] at h
    | cons c rest =>
      rw [tokenize_loop] at h
      split_ifs at h
      cases hs : scan_token c rest with
      | timeout => exact absurd hs (scan_token_ne_timeout _ _)
      | fault g =>
        rw [hs] at h
        simp only [Result.fault.injEq] at h
        subst h
        exact ⟨c, by simp, scan_token_fault _ _ _ hs⟩
      | ret p =>
        obtain ⟨t, s2⟩ := p
        rw [hs] at h
        obtain ⟨d, hd, hf⟩ := ih _ _ _ h
        exact ⟨d, scan_token_ret_subset _ _ _ _ hs d hd, hf⟩

/-! ## The parenthesis matcher -/

theorem run_depth_succ (buf : List Token) : ∀ (k : Nat) (i count : Int),
    run_depth buf i count (k + 1) = run_depth buf i count k + paren_delta buf (i + k) := by
  intro k
  induction k with
  | zero => intro i count; simp [run_depth]
  | succ k ih =>
    intro i count
    rw [run_depth, ih (i + 1) (count + paren_delta buf i), run_depth]
    congr 2
    push_cast
    ring

theorem paren_delta_bounds (buf : List Token) (i : Int) :
    -1 ≤ paren_delta buf i ∧ paren_delta buf i ≤ 1 := by
  unfold paren_delta
  cases tok_at buf i with
  | none => simp
  | some t => cases hty : t.type <;> simp [hty]

theorem paren_delta_neg (buf : List Token) (i : Int) (h : paren_delta buf i = -1) :
    ∃ t, tok_at buf i = some t ∧ t.type = Token_Type.rparen := by
  unfold paren_delta at h
  cases ht : tok_at buf i with
  | none => simp [ht] at h
  | some t =>
    refine ⟨t, rfl, ?_⟩
    rw [ht] at h
    cases hty : t.type <;> simp [hty] at h
    rfl

theorem find_closing_paren_loop_step (buf : List Token) (n : Nat) (i count : Int) (t : Token)
    (ht : tok_at buf i = some t) :
    find_closing_paren_loop buf (n + 1) i count =
      if count + paren_delta buf i = 0 then Result.ret i
      else find_closing_paren_loop buf n (i + 1) (count + paren_delta buf i) := by
  rw [find_closing_paren_loop]
  simp only [ht, paren_delta]
  cases hty : t.type <;> simp [hty, Int.sub_eq_add_neg]

/-- What the loop of `find_closing_paren` returns: `-1` after `n` tokens that
keep the running depth at 1 or above, or the first index at which the running
depth is 0, where an `rparen` token stands. -/
theorem find_closing_paren_loop_spec (buf : List Token) : ∀ (n : Nat) (i count j : Int),
    1 ≤ count → find_closing_paren_loop buf n i count = Result.ret j →
    (j = -1 ∧ ∀ k : Nat, k ≤ n → 1 ≤ run_depth buf i count k) ∨
    (0 ≤ j ∧ ∃ k : Nat, k < n ∧ j = i + k ∧ run_depth buf i count (k + 1) = 0 ∧
      (∀ m : Nat, m ≤ k → 1 ≤ run_depth buf i count m) ∧
      ∃ t, tok_at buf j = some t ∧ t.type = Token_Type.rparen) := by
  intro n
  induction n with
  | zero =>
    intro i count j hc h
    simp only [find_closing_paren_loop, Result.ret.injEq] at h
    left
    refine ⟨h.symm, fun k hk => ?_⟩
    have : k = 0 := by omega
    subst this
    simpa [run_depth] using hc
  | succ n ih =>
    intro i count j hc h
    cases ht : tok_at buf i with
    | none => simp [find_closing_paren_loop, ht] at h
    | some t =>
      rw [find_closing_paren_loop_step buf n i count t ht] at h
      have hb := paren_delta_bounds buf i
      by_cases h0 : count + paren_delta buf i = 0
      · rw [if_pos h0] at h
        simp only [Result.ret.injEq] at h
        subst h
        right
        have hi : 0 ≤ i := by
          by_contra hneg
          simp [tok_at, hneg] at ht
        refine ⟨hi, 0, by omega, by simp, by simpa [run_depth] using h0, ?_, ?_⟩
        · intro m hm
          have : m = 0 := by omega
          subst this
          simpa [run_depth] using hc
        · exact paren_delta_neg buf i (by omega)
      · rw [if_neg h0] at h
        have hc2 : 1 ≤ count + paren_delta buf i := by omega
        rcases ih (i + 1) (count + paren_delta buf i) j hc2 h with ⟨hj, hall⟩ | ⟨hj, k, hk, hjk, hz, hall, ht2⟩
        · left
          refine ⟨hj, fun k hk => ?_⟩
          cases k with
          | zero => simpa [run_depth] using hc
          | succ k => rw [run_depth]; exact hall k (by omega)
        · right
          refine ⟨hj, k + 1, by omega, by rw [hjk]; push_cast; ring, by rw [run_depth]; exact hz, ?_, ht2⟩
          intro m hm
          cases m with
          | zero => simpa [run_depth] using hc
          | succ m => rw [run_depth]; exact hall m (by omega)

/-- The loop of `find_closing_paren` returns when all its reads are inside
the buffer. -/
theorem find_closing_paren_loop_total (buf : List Token) : ∀ (n : Nat) (i count : Int),
    0 ≤ i → (∀ k : Nat, k < n → i + k < buf.length) →
    ∃ j, find_closing_paren_loop buf n i count = Result.ret j := by
  intro n
  induction n with
  | zero => intro i count _ _; exact ⟨-1, rfl⟩
  | succ n ih =>
    intro i count hi hlen
    have hlt : i < buf.length := by simpa using hlen 0 (by omega)
    have hget : ∃ t, tok_at buf i = some t := by
      have h1 : i.toNat < buf.length := by omega
      refine ⟨buf.get ⟨i.toNat, h1⟩, ?_⟩
      simp [tok_at, hi, List.get?_eq_get h1]
    obtain ⟨t, ht⟩ := hget
    rw [find_closing_paren_loop_step buf n i count t ht]
    split_ifs
    · exact ⟨i, rfl⟩
    · refine ih (i + 1) _ (by omega) (fun k hk => ?_)
      have := hlen (k + 1) (by omega)
      push_cast at this
      omega

/-- C11: when `find_closing_paren` returns an index `j >= 0`, then `j` is above
`open_index`, the token at `j` is an `rparen`, the running depth (1 after
`open_index`, `+1` per `lparen`, `-1` per `rparen`) is 0 at `j` and at least 1
at every index strictly between, so `j` is the first index where it is 0, and
it is exactly 1 just before `j`: the tokens strictly between are balanced. -/
theorem find_closing_paren_returns_matching_rparen (buf : List Token) (open_index j : Int)
    (h : find_closing_paren buf open_index = Result.ret j) (hj : 0 ≤ j) :
    open_index < j ∧
    (∃ t, tok_at buf j = some t ∧ t.type = Token_Type.rparen) ∧
    depth_at buf open_index j = 0 ∧
    (∀ k : Int, open_index < k → k < j → 1 ≤ depth_at buf open_index k) ∧
    depth_at buf open_index (j - 1) = 1 := by
  unfold find_closing_paren at h
  rcases find_closing_paren_loop_spec buf _ _ _ _ (le_refl 1) h with ⟨hneg, _⟩ | ⟨_, k, _, hjk, hz, hall, ht⟩
  · omega
  · have e1 : (j - open_index).toNat = k + 1 := by omega
    have e2 : (j - 1 - open_index).toNat = k := by omega
    refine ⟨by omega, ht, by rw [depth_at, e1]; exact hz, ?_, ?_⟩
    · intro m hm1 hm2
      have e3 : (m - open_index).toNat ≤ k := by omega
      rw [depth_at]
      exact hall _ e3
    · rw [depth_at, e2]
      have hs := run_depth_succ buf k (open_index + 1) 1
      rw [hz] at hs
      have hb := paren_delta_bounds buf (open_index + 1 + k)
      have hk := hall k (le_refl k)
      omega

/-- Witness for `find_closing_paren_returns_matching_rparen` on the tokens
`( 1 )` with the opening parenthesis at index 0. -/
theorem find_closing_paren_returns_matching_rparen_witness :
    find_closing_paren
      [mk_token Token_Type.lparen, number_token 1, mk_token Token_Type.rparen] 0 =
      Result.ret 2 ∧
    (0 : Int) ≤ 2 ∧
    depth_at [mk_token Token_Type.lparen, number_token 1, mk_token Token_Type.rparen] 0 2 = 0 :=
  ⟨by decide, by decide,
    (find_closing_paren_returns_matching_rparen
      [mk_token Token_Type.lparen, number_token 1, mk_token Token_Type.rparen] 0 2
      (by decide) (by decide)).2.2.1⟩

/-- C12: for every buffer and every index `open_index` of it, or beyond it,
`find_closing_paren` returns `-1` exactly when no index `j` above `open_index`
inside the buffer has running depth 0. -/
theorem find_closing_paren_not_found_iff (buf : List Token) (open_index : Nat) :
    find_closing_paren buf open_index = Result.ret (-1) ↔
      ¬ ∃ j : Int, (open_index : Int) < j ∧ j < buf.length ∧ depth_at buf open_index j = 0 := by
  unfold find_closing_paren sb_len
  constructor
  · intro h
    rcases find_closing_paren_loop_spec buf _ _ _ _ (le_refl 1) h with ⟨_, hall⟩ | ⟨hneg, _⟩
    · rintro ⟨j, hj1, hj2, hz⟩
      have := hall (j - open_index).toNat (by omega)
      rw [depth_at] at hz
      omega
    · omega
  · intro h
    obtain ⟨j, hj⟩ := find_closing_paren_loop_total buf
      ((buf.length : Int) - ((open_index : Int) + 1)).toNat ((open_index : Int) + 1) 1 (by omega)
      (fun k hk => by omega)
    rcases find_closing_paren_loop_spec buf _ _ _ _ (le_refl 1) hj with ⟨hneg, _⟩ | ⟨_, k, hk, hjk, hz, _, _⟩
    · rw [hj, hneg]
    · exfalso
      apply h
      refine ⟨j, by omega, by omega, ?_⟩
      have e1 : (j - open_index).toNat = k + 1 := by omega
      rw [depth_at, e1]
      exact hz

/-! ## The additive fold -/

/-- An iteration of `parse2` at a token that is no operator reads `current`
unassigned and copies it into `root`. -/
theorem parse2_loop_other (junk : Int → AST) (buf : List Token) (n : Nat) (i : Int) (root : AST)
    (t : Token) (ht : tok_at buf i = some t) (h1 : t.type ≠ Token_Type.minus)
    (h2 : t.type ≠ Token_Type.plus) :
    parse2_loop junk buf (n + 1) i root = parse2_loop junk buf n (i + 1) (junk i) := by
  cases root <;> simp [parse2_loop, ht, h1, h2]

theorem operand_ast_token (v : Int) (x : AST) : operand ⟨Token_Type.ast, v, x⟩ = x := by
  simp [operand]

/-- An iteration of `parse2` at an operator token builds the node of the
operator over `root`, or over the token before the operator when `root` is
NULL, and the token after the operator. -/
theorem parse2_loop_op (junk : Int → AST) (buf : List Token) (n : Nat) (i : Int) (root : AST)
    (plus : Bool) (l r : Token)
    (ht : tok_at buf i = some (mk_token (if plus then Token_Type.plus else Token_Type.minus)))
    (hl : tok_at buf (i - 1) = some l) (hr : tok_at buf (i + 1) = some r) :
    parse2_loop junk buf (n + 1) i root =
      parse2_loop junk buf n (i + 1)
        (op_node plus (match root with | AST.null => operand l | x => x) (operand r)) := by
  cases plus <;> cases root <;> simp_all [parse2_loop, mk_token, op_node, operand_ast_token]

theorem op_node_ne_null (plus : Bool) (l r : AST) : op_node plus l r ≠ AST.null := by
  cases plus <;> simp [op_node]

theorem operand_number_token (v : Int) : operand (number_token v) = AST.number v := by
  simp [operand, number_token]

theorem tok_at_mem (buf : List Token) (i : Int) (t : Token) (h : tok_at buf i = some t) :
    t ∈ buf := by
  unfold tok_at at h
  split_ifs at h
  exact List.get?_mem h

theorem tok_at_some_bounds (buf : List Token) (i : Int) (t : Token) (h : tok_at buf i = some t) :
    0 ≤ i ∧ i < buf.length := by
  unfold tok_at at h
  split_ifs at h with h0
  have := List.get?_eq_some.1 h
  obtain ⟨hlt, _⟩ := this
  omega

theorem tok_at_get (buf : List Token) (k : Int) (h0 : 0 ≤ k) (h1 : k < buf.length) :
    ∃ t, tok_at buf k = some t := by
  have h2 : k.toNat < buf.length := by omega
  exact ⟨buf.get ⟨k.toNat, h2⟩, by simp [tok_at, h0, List.get?_eq_get h2]⟩

/-- An iteration of `parse2` inside its index range reads only inside the buffer
and goes on to the next index. -/
theorem parse2_loop_step (junk : Int → AST) (buf : List Token) (n : Nat) (i : Int) (root : AST)
    (hi : 1 ≤ i) (hlen : i + 1 < buf.length) :
    ∃ next, parse2_loop junk buf (n + 1) i root = parse2_loop junk buf n (i + 1) next := by
  obtain ⟨t, ht⟩ := tok_at_get buf i (by omega) (by omega)
  obtain ⟨l, hl⟩ := tok_at_get buf (i - 1) (by omega) (by omega)
  obtain ⟨r, hr⟩ := tok_at_get buf (i + 1) (by omega) (by omega)
  by_cases hop : t.type = Token_Type.minus ∨ t.type = Token_Type.plus
  · cases root <;> simp only [parse2_loop, ht, hop, hl, hr, if_true] <;> exact ⟨_, rfl⟩
  · have h1 : t.type ≠ Token_Type.minus := fun e => hop (Or.inl e)
    have h2 : t.type ≠ Token_Type.plus := fun e => hop (Or.inr e)
    exact ⟨_, parse2_loop_other junk _ _ _ _ t ht h1 h2⟩

/-- The loop of `parse2` returns on every buffer: all its reads are inside the
buffer. -/
theorem parse2_loop_total (junk : Int → AST) (buf : List Token) : ∀ (n : Nat) (i : Int)
    (root : AST), 1 ≤ i → i + n ≤ (buf.length : Int) - 1 →
    ∃ r, parse2_loop junk buf n i root = Result.ret r := by
  intro n
  induction n with
  | zero => intro i root _ _; exact ⟨root, rfl⟩
  | succ n ih =>
    intro i root hi hlen
    push_cast at hlen
    obtain ⟨next, e⟩ := parse2_loop_step junk buf n i root hi (by omega)
    rw [e]
    exact ih _ _ (by omega) (by omega)

theorem parse2_total (junk : Int → AST) (buf : List Token) :
    ∃ r, parse2 junk buf = Result.ret r := by
  unfold parse2 sb_len
  by_cases h : (buf.length : Int) - 1 - 1 ≤ 0
  · have e : ((buf.length : Int) - 1 - 1).toNat = 0 := by omega
    rw [e]
    exact ⟨AST.null, rfl⟩
  · exact parse2_loop_total junk buf _ 1 _ (le_refl 1) (by omega)

/-- When the last two iterations of the loop of `parse2` stand at a token `u`
that is no operator and at an operator, the root returned is the node of that
operator over what `current` held unassigned in the iteration at `u`, or over
`u` when that is NULL: nothing built by an earlier iteration is part of it. -/
theorem parse2_loop_ends_in_op (junk : Int → AST) (buf : List Token) (j : Int) (plus : Bool)
    (u w : Token) (hu : tok_at buf j = some u) (hu1 : u.type ≠ Token_Type.minus)
    (hu2 : u.type ≠ Token_Type.plus)
    (ho : tok_at buf (j + 1) =
      some (mk_token (if plus then Token_Type.plus else Token_Type.minus)))
    (hw : tok_at buf (j + 1 + 1) = some w) :
    ∀ (n : Nat) (i : Int) (root : AST), 1 ≤ i → i + n = j →
      parse2_loop junk buf (n + 1 + 1) i root =
        Result.ret (op_node plus (match junk j with | AST.null => operand u | x => x)
          (operand w)) := by
  intro n
  induction n with
  | zero =>
    intro i root _ hij
    have e : i = j := by simpa using hij
    subst e
    rw [parse2_loop_other junk _ _ _ _ u hu hu1 hu2,
      parse2_loop_op junk _ _ _ _ plus u w ho (by simpa using hu) hw]
    rfl
  | succ n ih =>
    intro i root hi hij
    push_cast at hij
    have hb := (tok_at_some_bounds buf j u hu).2
    obtain ⟨next, e⟩ := parse2_loop_step junk buf (n + 1 + 1) i root hi (by omega)
    rw [e]
    exact ih _ _ (by omega) (by omega)

theorem chain_ops_append (a b : List (Bool × Int)) :
    chain_ops (a ++ b) = chain_ops a ++ chain_ops b := by
  induction a with
  | nil => rfl
  | cons p a ih => obtain ⟨c, v⟩ := p; simp [chain_ops, ih]

theorem chain_ops_length (l : List (Bool × Int)) : (chain_ops l).length = 2 * l.length := by
  induction l with
  | nil => rfl
  | cons q l ih => obtain ⟨c, u⟩ := q; simp [chain_ops, ih]; omega

/-- On a chain with one operator `parse2` returns the node of that operator
over the two numbers, whatever `current` holds. -/
theorem parse2_chain_one (junk : Int → AST) (t0 : Int) (p : Bool × Int) :
    parse2 junk (chain_tokens t0 [p]) =
      Result.ret (op_node p.1 (AST.number t0) (AST.number p.2)) := by
  obtain ⟨b, w⟩ := p
  cases b <;> rfl

/-- On a chain with two or more operators `parse2` returns the node of the last
operator over what `current` held unassigned in the iteration before it, or
over the number before the last operator when that is NULL. -/
theorem parse2_chain_two (junk : Int → AST) (t0 : Int) (ops : List (Bool × Int))
    (c : Bool) (u : Int) (b : Bool) (w : Int) :
    parse2 junk (chain_tokens t0 (ops ++ [(c, u), (b, w)])) =
      Result.ret (op_node b
        (match junk (2 * (ops.length : Int) + 2) with | AST.null => AST.number u | x => x)
        (AST.number w)) := by
  have hsplit : chain_tokens t0 (ops ++ [(c, u), (b, w)]) =
      (number_token t0 :: chain_ops ops ++
        [mk_token (if c then Token_Type.plus else Token_Type.minus)]) ++
      number_token u :: mk_token (if b then Token_Type.plus else Token_Type.minus) ::
        [number_token w] := by
    simp [chain_tokens, chain_ops_append, chain_ops]
  have hsplit2 : chain_tokens t0 (ops ++ [(c, u), (b, w)]) =
      (number_token t0 :: chain_ops ops ++
        [mk_token (if c then Token_Type.plus else Token_Type.minus), number_token u]) ++
      mk_token (if b then Token_Type.plus else Token_Type.minus) :: number_token w :: [] := by
    simp [chain_tokens, chain_ops_append, chain_ops]
  have hl1 : ((number_token t0 :: chain_ops ops ++
      [mk_token (if c then Token_Type.plus else Token_Type.minus)]).length : Int) =
      2 * (ops.length : Int) + 2 := by
    simp [chain_ops_length]; ring
  have hl2 : ((number_token t0 :: chain_ops ops ++
      [mk_token (if c then Token_Type.plus else Token_Type.minus), number_token u]).length : Int)
      = 2 * (ops.length : Int) + 2 + 1 := by
    simp [chain_ops_length]
  have h1 := tok_at_append (number_token t0 :: chain_ops ops ++
      [mk_token (if c then Token_Type.plus else Token_Type.minus)]) (number_token u)
    [mk_token (if b then Token_Type.plus else Token_Type.minus), number_token w]
  have h2 := tok_at_append_succ (number_token t0 :: chain_ops ops ++
      [mk_token (if c then Token_Type.plus else Token_Type.minus)]) (number_token u)
    (mk_token (if b then Token_Type.plus else Token_Type.minus)) [number_token w]
  have h3 := tok_at_append_succ (number_token t0 :: chain_ops ops ++
      [mk_token (if c then Token_Type.plus else Token_Type.minus), number_token u])
    (mk_token (if b then Token_Type.plus else Token_Type.minus)) (number_token w) []
  rw [← hsplit, hl1] at h1 h2
  rw [← hsplit2, hl2] at h3
  have hn : (sb_len (chain_tokens t0 (ops ++ [(c, u), (b, w)])) - 1 - 1).toNat =
      2 * ops.length + 1 + 1 + 1 := by
    simp only [sb_len, chain_tokens, List.length_cons, chain_ops_length, List.length_append,
      List.length_nil]
    omega
  rw [parse2, hn]
  have := parse2_loop_ends_in_op junk _ (2 * (ops.length : Int) + 2) b (number_token u)
    (number_token w) h1 (by simp [number_token]) (by simp [number_token]) h2 h3
    (2 * ops.length + 1) 1 AST.null (le_refl 1) (by push_cast; ring)
  rw [this]
  simp [operand_number_token]

/-- C13 (code defect shown at the tokens `1 + 2 - 3`): `parse2` declares
`current` in the body of its loop and copies it into `root` in every iteration
at a number token, so what earlier operators built is lost.  On the tokens
`t0 op1 t1` it returns the node of `op1` over `Number(t0)` and `Number(t1)`.
On a chain with two or more operators it returns the node of the last operator
whose left child is not the fold of the chain before it but what `current`
held unassigned, or the number before the last operator when that is NULL; on
`1 + 2 - 3` with NULL there it returns `Subtract(Number(2), Number(3))`, not the
left-nested tree `Subtract(Add(Number(1), Number(2)), Number(3))`.  Whatever
`current` holds, the tokens of `1 + 2 - 3` and of `5 + 2 - 3` give the same
root, so the left-nested tree is not returned for both. -/
theorem parse2_chain_loses_earlier_operators (junk : Int → AST) (t0 : Int) (p : Bool × Int)
    (ops : List (Bool × Int)) (c : Bool) (u : Int) (b : Bool) (w : Int) :
    parse2 junk (chain_tokens t0 [p]) =
      Result.ret (op_node p.1 (AST.number t0) (AST.number p.2)) ∧
    parse2 junk (chain_tokens t0 (ops ++ [(c, u), (b, w)])) =
      Result.ret (op_node b
        (match junk (2 * (ops.length : Int) + 2) with | AST.null => AST.number u | x => x)
        (AST.number w)) ∧
    parse2 (fun _ => AST.null) (chain_tokens 1 [(true, 2), (false, 3)]) =
      Result.ret (AST.subtract (AST.number 2) (AST.number 3)) ∧
    left_nested (AST.number 1) [(true, 2), (false, 3)] =
      AST.subtract (AST.add (AST.number 1) (AST.number 2)) (AST.number 3) ∧
    chain_tokens 1 [(true, 2), (false, 3)] =
      [⟨Token_Type.number, 1, AST.null⟩, ⟨Token_Type.plus, 0, AST.null⟩,
        ⟨Token_Type.number, 2, AST.null⟩, ⟨Token_Type.minus, 0, AST.null⟩,
        ⟨Token_Type.number, 3, AST.null⟩] ∧
    parse2 junk (chain_tokens 1 [(true, 2), (false, 3)]) =
      parse2 junk (chain_tokens 5 [(true, 2), (false, 3)]) ∧
    ¬ (parse2 junk (chain_tokens 1 [(true, 2), (false, 3)]) =
          Result.ret (left_nested (AST.number 1) [(true, 2), (false, 3)]) ∧
        parse2 junk (chain_tokens 5 [(true, 2), (false, 3)]) =
          Result.ret (left_nested (AST.number 5) [(true, 2), (false, 3)])) := by
  have e1 := parse2_chain_two junk 1 [] true 2 false 3
  have e5 := parse2_chain_two junk 5 [] true 2 false 3
  simp only [List.nil_append] at e1 e5
  refine ⟨parse2_chain_one junk t0 p, parse2_chain_two junk t0 ops c u b w, by decide,
    by decide, by decide, by rw [e1, e5], ?_⟩
  rintro ⟨a, b⟩
  rw [e1] at a
  rw [e5] at b
  have h := a.symm.trans b
  simp [left_nested, op_node] at h

/-! ## What `parse2` and `parse0` return -/

theorem parse2_loop_clean (junk : Int → AST) (buf : List Token)
    (hbuf : ∀ t ∈ buf, t.type ≠ Token_Type.ast)
    (hjunk : ∀ i : Int, null_or_add_subtract_number (junk i) = true) :
    ∀ (n : Nat) (i : Int) (root r : AST),
      null_or_add_subtract_number root = true →
      parse2_loop junk buf n i root = Result.ret r →
      null_or_add_subtract_number r = true := by
  intro n
  induction n with
  | zero =>
    intro i root r hr h
    simp only [parse2_loop, Result.ret.injEq] at h
    rw [← h]; exact hr
  | succ n ih =>
    intro i root r hr h
    cases ht : tok_at buf i with
    | none => cases root <;> simp [parse2_loop, ht] at h
    | some t =>
      by_cases hop : t.type = Token_Type.minus ∨ t.type = Token_Type.plus
      · have hnum : ∀ (u : Token), u ∈ buf → operand u = AST.number u.val := by
          intro u hu
          simp [operand, hbuf u hu]
        cases hr1 : tok_at buf (i + 1) with
        | none =>
          cases root <;> cases hl : tok_at buf (i - 1) <;>
            simp [parse2_loop, ht, hop, hr1, hl] at h
        | some rt =>
          have hrt := hnum rt (tok_at_mem _ _ _ hr1)
          cases root with
          | null =>
            cases hl : tok_at buf (i - 1) with
            | none => simp [parse2_loop, ht, hop, hr1, hl] at h
            | some lt =>
              have hlt := hnum lt (tok_at_mem _ _ _ hl)
              simp only [parse2_loop, ht, hop, hr1, hl, if_true, hlt, hrt] at h
              refine ih _ _ _ ?_ h
              split_ifs <;> simp [null_or_add_subtract_number, add_subtract_number]
          | main b | negative b | multiply a b | divide a b =>
            simp [null_or_add_subtract_number, add_subtract_number] at hr
          | number v =>
            simp only [parse2_loop, ht, hop, hr1, if_true, hrt, operand_ast_token] at h
            refine ih _ _ _ ?_ h
            split_ifs <;> simp [null_or_add_subtract_number, add_subtract_number]
          | add a b | subtract a b =>
            have ha : add_subtract_number a = true ∧ add_subtract_number b = true := by
              simpa [null_or_add_subtract_number, add_subtract_number] using hr
            simp only [parse2_loop, ht, hop, hr1, if_true, hrt, operand_ast_token] at h
            refine ih _ _ _ ?_ h
            split_ifs <;> simp [null_or_add_subtract_number, add_subtract_number, ha]
      · have h1 : t.type ≠ Token_Type.minus := fun e => hop (Or.inl e)
        have h2 : t.type ≠ Token_Type.plus := fun e => hop (Or.inr e)
        rw [parse2_loop_other junk _ _ _ _ t ht h1 h2] at h
        exact ih _ _ _ (hjunk i) h

/-- When every read of the unassigned `current` gives NULL or an
`add_subtract_number` tree and no token is an `ast` token, `parse2` returns
NULL or an `add_subtract_number` tree. -/
theorem parse2_clean (junk : Int → AST) (buf : List Token) (r : AST)
    (hbuf : ∀ t ∈ buf, t.type ≠ Token_Type.ast)
    (hjunk : ∀ i : Int, null_or_add_subtract_number (junk i) = true)
    (h : parse2 junk buf = Result.ret r) : null_or_add_subtract_number r = true :=
  parse2_loop_clean junk buf hbuf hjunk _ _ _ _ (by decide) h

/-- The loop of `parse2` on the tokens the lexer returns for `1 - 2`: the node
built at the `minus` token has the zero tokens of the two spaces as operands,
and the iteration after it replaces that node by the unassigned `current`. -/
theorem parse2_loop_one_minus_two (junk : Int → AST) :
    parse2_loop junk [number_token 1, mk_token Token_Type.number, mk_token Token_Type.minus,
        mk_token Token_Type.number, number_token 2] 2 1 AST.null =
      Result.ret (AST.subtract (match junk 1 with | AST.null => AST.number 0 | j => j)
        (AST.number 0)) ∧
    parse2 junk [number_token 1, mk_token Token_Type.number, mk_token Token_Type.minus,
        mk_token Token_Type.number, number_token 2] = Result.ret (junk 3) := by
  constructor
  · cases h : junk 1 <;>
      simp [parse2_loop, tok_at, mk_token, number_token, operand, h]
  · cases h : junk 1 <;>
      simp [parse2, sb_len, parse2_loop, tok_at, mk_token, number_token, operand, h]

/-- C16 (code defect shown at the tokens `1 2 3` and at the lexer output of
`1 - 2`): in an iteration at a token that is not an operator, `parse2` copies
`current`, which nothing has written, into `root`; on `1 2 3` and on the tokens
of `1 - 2` it returns that content.  With a `negative` node there the returned
tree is not made of `add`, `subtract` and `number` nodes. -/
theorem parse2_returns_stale_current (junk : Int → AST) :
    parse2 junk [number_token 1, number_token 2, number_token 3] = Result.ret (junk 1) ∧
    tokenize_expr (some []) 5 "1 - 2".toList = Result.ret (some
      [number_token 1, mk_token Token_Type.number, mk_token Token_Type.minus,
        mk_token Token_Type.number, number_token 2]) ∧
    parse2 junk [number_token 1, mk_token Token_Type.number, mk_token Token_Type.minus,
        mk_token Token_Type.number, number_token 2] = Result.ret (junk 3) ∧
    parse2 (fun _ => AST.negative (AST.number 2))
        [number_token 1, number_token 2, number_token 3] =
      Result.ret (AST.negative (AST.number 2)) ∧
    add_subtract_number (AST.negative (AST.number 2)) = false := by
  refine ⟨rfl, by decide, (parse2_loop_one_minus_two junk).2, rfl, rfl⟩

/-- Whenever `parse0` returns, it returns what `parse2` returns on the whole
buffer. -/
theorem parse0_ret (junk : Int → AST) (buf : List Token) : ∀ (fuel : Nat) (i bl : Int) (r : AST),
    parse0 junk buf fuel i bl = Result.ret r → parse2 junk buf = Result.ret r := by
  intro fuel
  induction fuel with
  | zero =>
    intro i bl r h
    by_cases hlt : i < bl
    · simp [parse0, hlt] at h
    · rw [parse0_done _ _ _ _ _ hlt] at h; exact h
  | succ n ih =>
    intro i bl r h
    by_cases hlt : i < bl
    · rw [parse0] at h
      simp only [hlt, if_true] at h
      cases h1 : tok_at buf i with
      | none => simp [h1] at h
      | some t =>
        simp only [h1] at h
        cases ht : t.type <;> simp only [ht] at h <;> try (exact absurd h (by simp))
        · exact ih _ _ _ h
        · exact ih _ _ _ h
        · cases h2 : tok_at buf (i + 1) with
          | none => simp [h2] at h
          | some nt =>
            simp only [h2] at h
            split_ifs at h with hn hl
            · exact ih _ _ _ h
            · cases hf : find_closing_paren buf (i + 1) with
              | fault f => simp [hf] at h
              | timeout => simp [hf] at h
              | ret c =>
                simp only [hf, Result.bind_ret] at h
                cases hb : parse0 junk buf n (i + 1) c with
                | timeout => simp [hb] at h
                | fault f => simp [hb] at h
                | ret body =>
                  simp only [hb, Result.bind_ret] at h
                  exact ih _ _ _ h
            · exact ih _ _ _ h
    · rw [parse0_done _ _ _ _ _ hlt] at h; exact h

theorem has_negative_of_clean (t : AST) (h : null_or_add_subtract_number t = true) :
    has_negative t = false := by
  induction t with
  | null => rfl
  | number v => rfl
  | main b _ | negative b _ | multiply a b _ _ | divide a b _ _ =>
    simp [null_or_add_subtract_number, add_subtract_number] at h
  | add a b iha ihb | subtract a b iha ihb =>
    have ha : add_subtract_number a = true ∧ add_subtract_number b = true := by
      simpa [null_or_add_subtract_number, add_subtract_number] using h
    simp [has_negative, iha (by simp [null_or_add_subtract_number, ha.1]),
      ihb (by simp [null_or_add_subtract_number, ha.2])]

/-- C18: whenever `parse0` returns, for whatever budget, offset and buffer
length, its result is what `parse2` returns on the whole buffer, so the
`negative` nodes it builds are no part of it; with no `ast` token in the buffer
and NULL or a tree of `add`, `subtract` and `number` nodes at every read of the
unassigned `current`, the returned tree has no `negative` node. -/
theorem parse0_returns_parse2 (junk : Int → AST) (buf : List Token) (fuel : Nat)
    (offset buffer_len : Int) (r : AST)
    (h : parse0 junk buf fuel offset buffer_len = Result.ret r) :
    parse2 junk buf = Result.ret r ∧
    ((∀ t ∈ buf, t.type ≠ Token_Type.ast) →
      (∀ i : Int, null_or_add_subtract_number (junk i) = true) →
      has_negative r = false) := by
  have h2 := parse0_ret junk buf fuel offset buffer_len r h
  exact ⟨h2, fun hbuf hjunk => has_negative_of_clean r (parse2_clean junk buf r hbuf hjunk h2)⟩

/-- Witness for `parse0_returns_parse2` on the tokens `1 - 2`. -/
theorem parse0_returns_parse2_witness :
    parse0 (fun _ => AST.null) [number_token 1, mk_token Token_Type.minus, number_token 2]
        3 0 3 = Result.ret (AST.subtract (AST.number 1) (AST.number 2)) ∧
    parse2 (fun _ => AST.null) [number_token 1, mk_token Token_Type.minus, number_token 2] =
      Result.ret (AST.subtract (AST.number 1) (AST.number 2)) :=
  ⟨by decide, (parse0_returns_parse2 (fun _ => AST.null)
    [number_token 1, mk_token Token_Type.minus, number_token 2] 3 0 3
    (AST.subtract (AST.number 1) (AST.number 2)) (by decide)).1⟩

/-- C14 (code defect shown at the tokens `1 - 2` and `- 5`): `parse0` builds the
`negative` node for a `minus` followed by a `number` and drops it.  On `1 - 2`
it returns `Subtract(Number(1), Number(2))`, a tree without a `negative` node;
on `- 5` it returns NULL; and whatever it returns is the result of `parse1` on
the buffer it was given, which holds no `ast` token in place of the span. -/
theorem parse0_drops_negative_node (junk : Int → AST) (fuel : Nat) :
    parse0 junk [number_token 1, mk_token Token_Type.minus, number_token 2] (2 + fuel) 0 3 =
      Result.ret (AST.subtract (AST.number 1) (AST.number 2)) ∧
    parse0 junk [mk_token Token_Type.minus, number_token 5] (1 + fuel) 0 2 =
      Result.ret AST.null ∧
    has_negative (AST.subtract (AST.number 1) (AST.number 2)) = false ∧
    (∀ (buf : List Token) (offset buffer_len : Int) (r : AST),
      parse0 junk buf fuel offset buffer_len = Result.ret r → parse1 junk buf = Result.ret r) := by
  refine ⟨?_, ?_, rfl, fun buf offset bl r h => parse0_ret junk buf fuel offset bl r h⟩
  · exact parse0_mono _ _ _ _ _ _ _ rfl (by simp)
  · exact parse0_mono _ _ _ _ _ _ _ rfl (by simp)

/-- When the last iteration of the loop of `parse2` stands at a token that is no
operator, the root returned is what `current` held unassigned there. -/
theorem parse2_loop_ends_in_other (junk : Int → AST) (buf : List Token) (j : Int) (u : Token)
    (hu : tok_at buf j = some u) (hu1 : u.type ≠ Token_Type.minus)
    (hu2 : u.type ≠ Token_Type.plus) :
    ∀ (n : Nat) (i : Int) (root : AST), 1 ≤ i → i + n = j → j + 1 < buf.length →
      parse2_loop junk buf (n + 1) i root = Result.ret (junk j) := by
  intro n
  induction n with
  | zero =>
    intro i root _ hij _
    have e : i = j := by simpa using hij
    subst e
    rw [parse2_loop_other junk _ _ _ _ u hu hu1 hu2]
    rfl
  | succ n ih =>
    intro i root hi hij hlen
    push_cast at hij
    obtain ⟨next, e⟩ := parse2_loop_step junk buf (n + 1) i root hi (by omega)
    rw [e]
    exact ih _ _ (by omega) (by omega) hlen

theorem tok_at_append_add (front suf : List Token) (k : Nat) :
    tok_at (front ++ suf) ((front.length : Int) + k) = suf.get? k := by
  have h := get?_append_add suf k front
  have e : ((front.length : Int) + k).toNat = front.length + k := by omega
  have h0 : (0 : Int) ≤ (front.length : Int) + k := by omega
  simp only [tok_at, h0, if_true, e, h]

/-- Whatever buffer `token_buffer` addresses on entry, a root returned for the
text `1 - 2` is what `current` held unassigned in the last iteration of
`parse2`, which stands at the zero token of the second space. -/
theorem ast_generate_from_expr_one_minus_two_any_entry (junk : Int → AST)
    (buf : List Token) (fuel : Nat) (r : AST)
    (h : ast_generate_from_expr (some buf) junk fuel "1 - 2".toList = Result.ret r) :
    r = junk ((buf.length : Int) + 3) := by
  have hlex : ∀ f : Nat, tokenize_loop (f + 5) "1 - 2".toList buf =
      Result.ret (buf ++ [number_token 1, mk_token Token_Type.number,
        mk_token Token_Type.minus, mk_token Token_Type.number, number_token 2]) := by
    intro f
    have e : tokenize_loop 5 "1 - 2".toList [] =
        Result.ret [number_token 1, mk_token Token_Type.number,
          mk_token Token_Type.minus, mk_token Token_Type.number, number_token 2] := by decide
    have := tokenize_loop_mono f _ _ _ _ e (by simp)
    rw [tokenize_loop_acc, show f + 5 = 5 + f by omega, this]
    rfl
  unfold ast_generate_from_expr at h
  rw [tokenize_expr_some] at h
  rcases tokenize_loop_timeout_or _ buf _ 5 hlex fuel with e | e
  · rw [e] at h; cases h
  · rw [e] at h
    simp only [Result.bind_ret] at h
    have h2 := parse0_ret junk _ _ _ _ _ h
    have hn : (sb_len (buf ++ [number_token 1, mk_token Token_Type.number,
        mk_token Token_Type.minus, mk_token Token_Type.number, number_token 2]) - 1 - 1).toNat =
        (buf.length + 2) + 1 := by
      simp only [sb_len, List.length_append, List.length_cons, List.length_nil]
      omega
    rw [parse2, hn] at h2
    have ht := tok_at_append_add buf [number_token 1, mk_token Token_Type.number,
        mk_token Token_Type.minus, mk_token Token_Type.number, number_token 2] 3
    have ht3 : tok_at (buf ++ [number_token 1, mk_token Token_Type.number,
        mk_token Token_Type.minus, mk_token Token_Type.number, number_token 2])
        ((buf.length : Int) + 3) = some (mk_token Token_Type.number) := by
      simpa using ht
    have := parse2_loop_ends_in_other junk _ ((buf.length : Int) + 3)
      (mk_token Token_Type.number) ht3 (by decide) (by decide) (buf.length + 2) 1 AST.null
      (le_refl 1) (by push_cast; ring) (by simp; omega)
    rw [this] at h2
    simp only [Result.ret.injEq] at h2
    exact h2.symm

/-- C17 (code defect shown at the texts `1 - 2` and `1 - 2 - 3`): the parser
returns, but not the tree of the operands.  The lexer pushes a zero token for
every space, so the node `parse2` builds at a `minus` has the zero token of the
space after it as right child, and the last iteration, at such a zero token,
replaces the root by the unassigned `current`.  With a NULL `token_buffer` on
entry the root returned for `1 - 2` is that content, the same as for `7 - 9`,
so it is not `Subtract(Number(n0), Number(n1))` for both texts, whatever
`current` holds; with NULL there it is NULL.  Whatever `token_buffer` holds on
entry, a root returned for `1 - 2` is such an unassigned content of
`current`. -/
theorem ast_generate_from_expr_subtraction_chain_zero_operands (junk : Int → AST)
    (fuel : Nat) :
    ast_generate_from_expr (some []) junk (5 + fuel) "1 - 2".toList = Result.ret (junk 3) ∧
    ast_generate_from_expr (some []) junk (5 + fuel) "7 - 9".toList = Result.ret (junk 3) ∧
    ¬ (ast_generate_from_expr (some []) junk (5 + fuel) "1 - 2".toList =
          Result.ret (AST.subtract (AST.number 1) (AST.number 2)) ∧
        ast_generate_from_expr (some []) junk (5 + fuel) "7 - 9".toList =
          Result.ret (AST.subtract (AST.number 7) (AST.number 9))) ∧
    ast_generate_from_expr (some []) (fun _ => AST.null) (5 + fuel) "1 - 2".toList ≠
      Result.ret (AST.subtract (AST.number 1) (AST.number 2)) ∧
    ast_generate_from_expr (some []) junk (9 + fuel) "1 - 2 - 3".toList =
      Result.ret (junk 7) ∧
    parse2_loop junk [number_token 1, mk_token Token_Type.number, mk_token Token_Type.minus,
        mk_token Token_Type.number, number_token 2] 2 1 AST.null =
      Result.ret (AST.subtract (match junk 1 with | AST.null => AST.number 0 | j => j)
        (AST.number 0)) ∧
    (∀ (buf : List Token) (f : Nat) (r : AST),
      ast_generate_from_expr (some buf) junk f "1 - 2".toList = Result.ret r →
        r = junk ((buf.length : Int) + 3)) ∧
    (∀ (f : Nat) (r : AST),
      ast_generate_from_expr none junk f "1 - 2".toList ≠ Result.ret r) := by
  have h1 : ast_generate_from_expr (some []) junk (5 + fuel) "1 - 2".toList =
      Result.ret (junk 3) := by
    refine ast_generate_from_expr_mono _ _ _ _ _ _ ?_ (by simp)
    have e : ast_generate_from_expr (some []) junk 5 "1 - 2".toList =
        parse2 junk [number_token 1, mk_token Token_Type.number, mk_token Token_Type.minus,
          mk_token Token_Type.number, number_token 2] := rfl
    rw [e]
    exact (parse2_loop_one_minus_two junk).2
  have h2 : ast_generate_from_expr (some []) junk (5 + fuel) "7 - 9".toList =
      Result.ret (junk 3) := by
    refine ast_generate_from_expr_mono _ _ _ _ _ _ ?_ (by simp)
    have e : ast_generate_from_expr (some []) junk 5 "7 - 9".toList =
        parse2_loop junk [number_token 7, mk_token Token_Type.number,
          mk_token Token_Type.minus, mk_token Token_Type.number, number_token 9]
          (2 + 1) 1 AST.null := rfl
    rw [e]
    exact parse2_loop_ends_in_other junk [number_token 7, mk_token Token_Type.number,
      mk_token Token_Type.minus, mk_token Token_Type.number, number_token 9] 3
      (mk_token Token_Type.number) (by decide) (by decide)
      (by decide) 2 1 _ (le_refl 1) (by norm_num) (by simp)
  have h3 : ast_generate_from_expr (some []) junk (9 + fuel) "1 - 2 - 3".toList =
      Result.ret (junk 7) := by
    refine ast_generate_from_expr_mono _ _ _ _ _ _ ?_ (by simp)
    have e : ast_generate_from_expr (some []) junk 9 "1 - 2 - 3".toList =
        parse2_loop junk [number_token 1, mk_token Token_Type.number,
          mk_token Token_Type.minus, mk_token Token_Type.number, number_token 2,
          mk_token Token_Type.number, mk_token Token_Type.minus, mk_token Token_Type.number,
          number_token 3] (6 + 1) 1 AST.null := rfl
    rw [e]
    exact parse2_loop_ends_in_other junk [number_token 1, mk_token Token_Type.number,
      mk_token Token_Type.minus, mk_token Token_Type.number, number_token 2,
      mk_token Token_Type.number, mk_token Token_Type.minus, mk_token Token_Type.number,
      number_token 3] 7 (mk_token Token_Type.number) (by decide) (by decide)
      (by decide) 6 1 _ (le_refl 1) (by norm_num) (by simp)
  refine ⟨h1, h2, ?_, ?_, h3, (parse2_loop_one_minus_two junk).1,
    fun buf f r h => ast_generate_from_expr_one_minus_two_any_entry junk buf f r h,
    fun f r => ast_generate_from_expr_none junk f _ r⟩
  · rintro ⟨a, b⟩
    rw [h1] at a
    rw [h2] at b
    rw [a] at b
    cases b
  · exact fun h => by
      have := ast_generate_from_expr_mono (some []) (fun _ => AST.null) fuel 5 "1 - 2".toList
        (Result.ret AST.null) rfl (by simp)
      rw [this] at h
      cases h

/-! ## Unmatched parentheses -/

theorem scan_token_minus (c : Char) (rest : List Char) (t : Token) (s2 : List Char)
    (h : scan_token c rest = Result.ret (t, s2)) :
    (t.type = Token_Type.minus → s2.head? = some ' ') ∧
    (c = ' ' → t.type = Token_Type.number) := by
  unfold scan_token at h
  split_ifs at h with h1 h2 h3 h4 h5 <;>
    simp only [Result.ret.injEq, Prod.mk.injEq] at h <;> obtain ⟨rfl, rfl⟩ := h <;>
    simp_all [mk_token, number_token]
  cases rest with
  | nil => exact absurd h5 (by decide)
  | cons d rest => simpa [next_char] using h5

/-- In what the lexer returns every `minus` token is followed by a `number`
token: the `minus` case is taken only before a space, and the space pushes a
token of type `number`. -/
theorem tokenize_loop_minus_followed : ∀ (fuel : Nat) (s : List Char) (toks : List Token),
    tokenize_loop fuel s [] = Result.ret toks →
    minus_followed toks = true ∧
    (s.head? = some ' ' → ∃ t rest, toks = t :: rest ∧ t.type = Token_Type.number) := by
  intro fuel
  induction fuel with
  | zero =>
    intro s toks h
    cases s with
    | nil =>
      simp only [tokenize_loop_nil, Result.ret.injEq] at h
      subst h
      simp [minus_followed]
    | cons c rest =>
      by_cases h0 : c = Char.ofNat 0
      · simp only [tokenize_loop_nul _ _ _ _ h0, Result.ret.injEq] at h
        subst h
        refine ⟨rfl, fun hh => ?_⟩
        simp only [List.head?_cons, Option.some.injEq] at hh
        rw [hh] at h0
        exact absurd h0 (by decide)
      · simp [tokenize_loop, h0] at h
  | succ n ih =>
    intro s toks h
    cases s with
    | nil =>
      simp only [tokenize_loop_nil, Result.ret.injEq] at h
      subst h
      simp [minus_followed]
    | cons c rest =>
      by_cases h0 : c = Char.ofNat 0
      · simp only [tokenize_loop_nul _ _ _ _ h0, Result.ret.injEq] at h
        subst h
        refine ⟨rfl, fun hh => ?_⟩
        simp only [List.head?_cons, Option.some.injEq] at hh
        rw [hh] at h0
        exact absurd h0 (by decide)
      · rw [tokenize_loop] at h
        simp only [h0, if_false] at h
        cases hs : scan_token c rest with
        | fault f => simp [hs] at h
        | timeout => simp [hs] at h
        | ret p =>
          obtain ⟨t, s2⟩ := p
          simp only [hs, sb_push] at h
          rw [tokenize_loop_acc] at h
          cases hts : tokenize_loop n s2 [] with
          | fault f => simp [hts] at h
          | timeout => simp [hts] at h
          | ret ts =>
            simp only [hts, Result.bind_ret, Result.ret.injEq, List.nil_append,
              List.singleton_append] at h
            subst h
            obtain ⟨hm, hhead⟩ := ih s2 ts hts
            obtain ⟨hmin, hsp⟩ := scan_token_minus c rest t s2 hs
            refine ⟨?_, fun hh => ⟨t, ts, rfl, hsp (by simpa using hh)⟩⟩
            simp only [minus_followed, hm, Bool.and_true, Bool.or_eq_true, decide_eq_true_eq]
            by_cases htm : t.type = Token_Type.minus
            · right
              obtain ⟨u, r, hu, hty⟩ := hhead (hmin htm)
              subst hu
              simpa using hty
            · left; exact htm

/-- On a buffer whose part from `front.length` on has every `minus` followed
by a `number`, the scan of `parse0` up to the end of the buffer reads no token
outside the buffer. -/
theorem parse0_in_bounds (junk : Int → AST) : ∀ (fuel : Nat) (front suf : List Token) (bl : Int),
    minus_followed suf = true → bl = (front.length : Int) + (suf.length : Int) →
    parse0 junk (front ++ suf) fuel front.length bl ≠ Result.fault Fault.out_of_bounds := by
  intro fuel
  induction fuel with
  | zero =>
    intro front suf bl _ _
    by_cases hlt : (front.length : Int) < bl
    · have e : parse0 junk (front ++ suf) 0 front.length bl = Result.timeout := by
        simp only [parse0, hlt, if_true]
      rw [e]
      simp
    · rw [parse0_done _ _ _ _ _ hlt, parse1]
      obtain ⟨r, hr⟩ := parse2_total junk (front ++ suf)
      rw [hr]
      simp
  | succ n ih =>
    intro front suf bl hm hbl
    cases suf with
    | nil =>
      rw [parse0_done _ _ _ _ _ (by simp at hbl; omega), parse1]
      obtain ⟨r, hr⟩ := parse2_total junk (front ++ [])
      rw [hr]
      simp
    | cons t rest =>
      simp only [List.length_cons, Nat.cast_add, Nat.cast_one] at hbl
      have hlt : (front.length : Int) < bl := by omega
      simp only [minus_followed, Bool.and_eq_true, Bool.or_eq_true, decide_eq_true_eq] at hm
      obtain ⟨hfirst, hrest⟩ := hm
      have step1 := ih (front ++ [t]) rest bl hrest (by simp; omega)
      simp only [List.append_assoc, List.singleton_append, List.length_append,
        List.length_singleton, Nat.cast_add, Nat.cast_one] at step1
      rw [parse0]
      simp only [hlt, if_true, tok_at_append]
      cases hty : t.type <;> simp only [] <;> try (simp; done)
      · exact step1
      · exact step1
      · rcases hfirst with hne | hnum
        · exact absurd hty hne
        · cases rest with
          | nil => simp at hnum
          | cons u rest2 =>
            have hu : u.type = Token_Type.number := by simpa using hnum
            simp only [minus_followed, Bool.and_eq_true] at hrest
            have step2 := ih (front ++ [t, u]) rest2 bl hrest.2 (by simp at hbl ⊢; omega)
            simp only [List.append_assoc, List.cons_append, List.nil_append, List.length_append,
              List.length_cons, List.length_nil, Nat.cast_add, Nat.cast_one] at step2
            simp only [tok_at_append_succ, hu, if_true]
            have e : (front.length : Int) + ((0 : Nat) + 1 + 1) = (front.length : Int) + 1 + 1 := by
              push_cast; ring
            rw [e] at step2
            exact step2

/-- With a NULL `token_buffer` on entry no run of `ast_generate_from_expr` ends
in a read outside the token buffer. -/
theorem ast_generate_from_expr_null_entry_in_bounds (junk : Int → AST) (fuel : Nat)
    (text : List Char) :
    ast_generate_from_expr (some []) junk fuel text ≠ Result.fault Fault.out_of_bounds := by
  unfold ast_generate_from_expr
  rw [tokenize_expr_some]
  cases ht : tokenize_loop fuel text [] with
  | fault f =>
    obtain ⟨c, _, hf, _⟩ := tokenize_loop_fault_sound fuel text [] f ht
    simp [hf]
  | timeout => simp
  | ret toks =>
    have hm := (tokenize_loop_minus_followed fuel text toks ht).1
    have := parse0_in_bounds junk fuel [] toks (sb_len toks) hm (by simp [sb_len])
    simpa using this

/-- C19 (code defect shown at the text `5` and at the empty text):
`tokenize_expr` never initialises `token_buffer`, so the token sequence the
parser reads is what the pointer held on entry followed by the tokens of the
text.  When the pointer addresses no buffer the first `sb_push`, or `sb_len` for
the empty text, is a read outside any buffer; when it addresses a buffer that
holds a `minus` token, the empty text makes `parse0` read the token after that
`minus`, one past the end.  Only with a NULL pointer on entry every read stays
inside: a `minus` token the lexer pushes is followed by the zero token of the
space, as on the text `1 - `. -/
theorem ast_generate_from_expr_reads_outside_buffer (junk : Int → AST) (fuel : Nat) :
    ast_generate_from_expr none junk (fuel + 1) "5".toList = Result.fault Fault.wild_pointer ∧
    ast_generate_from_expr none junk fuel [] = Result.fault Fault.wild_pointer ∧
    tokenize_expr (some [⟨Token_Type.minus, 0, AST.null⟩]) fuel [] =
      Result.ret (some [⟨Token_Type.minus, 0, AST.null⟩]) ∧
    ast_generate_from_expr (some [⟨Token_Type.minus, 0, AST.null⟩]) junk (fuel + 1) [] =
      Result.fault Fault.out_of_bounds ∧
    (∀ text : List Char,
      ast_generate_from_expr (some []) junk fuel text ≠ Result.fault Fault.out_of_bounds) ∧
    (∀ (text : List Char) (toks : List Token),
      tokenize_expr (some []) fuel text = Result.ret (some toks) →
        minus_followed toks = true) ∧
    tokenize_expr (some []) 4 "1 - ".toList = Result.ret (some
      [number_token 1, mk_token Token_Type.number, mk_token Token_Type.minus,
        mk_token Token_Type.number]) := by
  refine ⟨?_, ?_, ?_, ?_, fun text => ast_generate_from_expr_null_entry_in_bounds junk fuel text,
    ?_, by decide⟩
  · simp [ast_generate_from_expr, tokenize_expr, scan_token, Char.isDigit]
  · cases fuel <;> rfl
  · rw [tokenize_expr_some, tokenize_loop_nil]; rfl
  · rw [ast_generate_from_expr, tokenize_expr_some, tokenize_loop_nil]
    simp [parse0, sb_len, tok_at]
  · intro text toks h
    rw [tokenize_expr_some] at h
    cases ht : tokenize_loop fuel text [] with
    | fault f => rw [ht] at h; cases h
    | timeout => rw [ht] at h; cases h
    | ret ts =>
      rw [ht] at h
      simp only [Result.bind_ret, Result.ret.injEq, Option.some.injEq] at h
      subst h
      exact (tokenize_loop_minus_followed fuel text ts ht).1

theorem find_closing_paren_loop_ne_timeout (buf : List Token) : ∀ (n : Nat) (i count : Int),
    find_closing_paren_loop buf n i count ≠ Result.timeout := by
  intro n
  induction n with
  | zero => intro i count; simp [find_closing_paren_loop]
  | succ n ih =>
    intro i count
    cases ht : tok_at buf i with
    | none => simp [find_closing_paren_loop, ht]
    | some t =>
      rw [find_closing_paren_loop_step buf n i count t ht]
      split_ifs
      · simp
      · exact ih _ _

/-- A budget above the number of tokens from `i` to the end of the buffer is
enough for `parse0`: every nested call and every further iteration starts at
a larger index, and an index can be read only inside the buffer. -/
theorem parse0_ne_timeout (junk : Int → AST) (buf : List Token) : ∀ (fuel : Nat) (i bl : Int),
    1 ≤ fuel → (0 ≤ i → ((buf.length : Int) - i).toNat < fuel) →
    parse0 junk buf fuel i bl ≠ Result.timeout := by
  intro fuel
  induction fuel with
  | zero => intro i bl h; omega
  | succ n ih =>
    intro i bl _ hfuel
    by_cases hlt : i < bl
    · rw [parse0]
      simp only [hlt, if_true]
      cases h1 : tok_at buf i with
      | none => simp
      | some t =>
        obtain ⟨hi0, hi1⟩ := tok_at_some_bounds buf i t h1
        have hf := hfuel hi0
        have hn : 1 ≤ n := by omega
        have next1 : ∀ bl2 : Int, parse0 junk buf n (i + 1) bl2 ≠ Result.timeout :=
          fun bl2 => ih (i + 1) bl2 hn (fun _ => by omega)
        have next2 : ∀ bl2 : Int, parse0 junk buf n (i + 1 + 1) bl2 ≠ Result.timeout :=
          fun bl2 => ih (i + 1 + 1) bl2 hn (fun _ => by omega)
        simp only []
        cases ht : t.type <;> simp only [] <;> try (simp; done)
        · exact next1 bl
        · exact next1 bl
        · cases h2 : tok_at buf (i + 1) with
          | none => simp
          | some nt =>
            simp only []
            split_ifs with hnum hl
            · exact next2 bl
            · cases hf2 : find_closing_paren buf (i + 1) with
              | timeout => exact absurd hf2 (find_closing_paren_loop_ne_timeout _ _ _ _)
              | fault f => simp
              | ret c =>
                simp only [Result.bind_ret]
                cases hb : parse0 junk buf n (i + 1) c with
                | timeout => exact absurd hb (next1 c)
                | fault f => simp
                | ret body =>
                  simp only [Result.bind_ret]
                  exact next2 bl
            · exact next2 bl
    · rw [parse0_done _ _ _ _ _ hlt, parse1]
      obtain ⟨r, hr⟩ := parse2_total junk buf
      rw [hr]
      simp

/-- The nested call of `parse0`: at a `minus` token followed by an `lparen`
token it runs `parse0` from the index of the `lparen`, one above the index of
the `minus`, up to what `find_closing_paren` returned, and then goes on two
above. -/
theorem parse0_minus_lparen (junk : Int → AST) (buf : List Token) (fuel : Nat) (i bl c : Int)
    (t u : Token) (hlt : i < bl) (ht : tok_at buf i = some t) (hty : t.type = Token_Type.minus)
    (hu : tok_at buf (i + 1) = some u) (huty : u.type = Token_Type.lparen)
    (hc : find_closing_paren buf (i + 1) = Result.ret c) :
    parse0 junk buf (fuel + 1) i bl =
      (parse0 junk buf fuel (i + 1) c).bind fun _ => parse0 junk buf fuel (i + 1 + 1) bl := by
  rw [parse0]
  simp [hlt, ht, hty, hu, huty, hc]

/-- C20: `parse0` terminates on every buffer, offset and buffer length: a budget
of one more than the number of tokens is never used up.  This includes the
call on `- (` where `find_closing_paren` returns `-1`, the call on `- ( 1 )`
with buffer length 2 where it returns an index beyond the buffer length, and a
call with a negative offset, which ends at its first read. -/
theorem parse0_terminates (junk : Int → AST) (buf : List Token) (fuel : Nat)
    (offset buffer_len : Int) :
    parse0 junk buf (buf.length + 1 + fuel) offset buffer_len ≠ Result.timeout ∧
    find_closing_paren [mk_token Token_Type.minus, mk_token Token_Type.lparen] 1 =
      Result.ret (-1) ∧
    parse0 junk [mk_token Token_Type.minus, mk_token Token_Type.lparen] 3 0 2 =
      Result.ret AST.null ∧
    find_closing_paren [mk_token Token_Type.minus, mk_token Token_Type.lparen,
        number_token 1, mk_token Token_Type.rparen] 1 = Result.ret 3 ∧
    parse0 junk [mk_token Token_Type.minus, mk_token Token_Type.lparen,
        number_token 1, mk_token Token_Type.rparen] 5 0 2 = Result.ret (junk 2) ∧
    parse0 junk [number_token 1] 2 (-1) 5 = Result.fault Fault.out_of_bounds := by
  refine ⟨parse0_ne_timeout junk buf _ offset buffer_len (by omega) (fun _ => by omega),
    rfl, rfl, rfl, rfl, rfl⟩

end Ast
